import Mathlib

/-!
# Verification of the YAJBE C codec

A shallow embedding of the YAJBE binary codec (`src/c/src`): the in-memory
byte reader and writer, the value encoder (`yajbe-encoder.c`), the value
decoder (`yajbe-decoder.c`), and the field-name encoder and decoder
(`fields-encoder.c`, `fields-decoder.c`).

Conventions of the embedding:
* Bytes are `Nat`; the writer masks with `% 256` exactly where the C code
  masks with `& 0xff` or stores into a `uint8_t` buffer.
* Machine integers are `Nat`/`Int`; two's-complement reinterpretation is
  made explicit where the C code relies on it.
* The byte writer is modelled as an unbounded `List Nat` accumulator (the
  "sufficiently large sink" of the round-trip properties); the byte reader
  keeps the in-memory reader's bounds checks and error codes.
* Fallible operations return `Except Int` or a result code `Int`, with the
  C error values `-ENOSPC = -28` and `-EINVAL = -22`.
* IEEE-754 values are carried as their bit patterns (`Nat`): the C encoder
  and decoder only `memcpy` the representation bytes, so bit-for-bit
  round-trip is a statement about the patterns, not about float arithmetic.
-/

namespace Yajbe

/-- C `errno` value `ENOSPC` (28): out of space. -/
def ENOSPC : Int := 28

/-- C `errno` value `EINVAL` (22): invalid argument / wrong token type. -/
def EINVAL : Int := 22

/-! ## Little-endian byte helpers

`leBytes v w` is the list of the low `w` bytes of `v`, least significant
first: the bytes stamped by the fall-through ladder of
`__mem_bytes_writer_write_uint` (`bytes-writer.c`), which writes
`(value >> 8*i) & 0xff` at offset `i` for `i < width`.
`leRead bs w` gathers `w` bytes back, mirroring the OR-accumulation ladder
of `__mem_bytes_reader_read_uint` (`bytes-reader.c`): the byte lanes are
disjoint, so the OR of the shifted masked bytes is the positional sum. -/

def leBytes : Nat → Nat → List Nat
  | _, 0 => []
  | v, w + 1 => (v % 256) :: leBytes (v / 256) w

def leRead : List Nat → Nat → Nat
  | _, 0 => 0
  | [], _ + 1 => 0
  | b :: bs, w + 1 => (b % 256) + 256 * leRead bs w

/-- `__int_bytes_width` (`yajbe-encoder.c` line 23):
`(value != 0) ? ((64 - clzll(value)) + 7) >> 3 : 1`, the byte width
`⌈bitlength(v)/8⌉` of a nonzero 64-bit value (and `1` for `0`), written
as the comparison ladder that tabulates `clzll` by byte thresholds so the
kernel can evaluate it.  `intBytesWidth_eq_log2` below checks it against
the literal formula with `64 - clzll v = Nat.log2 v + 1`. -/
def intBytesWidth (v : Nat) : Nat :=
  if v < 2 ^ 8 then 1
  else if v < 2 ^ 16 then 2
  else if v < 2 ^ 24 then 3
  else if v < 2 ^ 32 then 4
  else if v < 2 ^ 40 then 5
  else if v < 2 ^ 48 then 6
  else if v < 2 ^ 56 then 7
  else 8

/-! ## In-memory byte reader (`bytes-reader.c`)

State `(buffer, offset)`; every operation checks
`bufsize < offset + n` and fails with `-ENOSPC` leaving the cursor
unchanged, exactly as the C reader. -/

structure MemReader where
  buffer : List Nat
  offset : Nat
deriving Repr, DecidableEq

/-- `__mem_bytes_reader_read_byte`: one byte, masked with `& 0xff`. -/
def readU8 (r : MemReader) : Except Int (Nat × MemReader) :=
  if r.buffer.length < r.offset + 1 then .error (-ENOSPC)
  else .ok ((r.buffer.getD r.offset 0) % 256, ⟨r.buffer, r.offset + 1⟩)

/-- `__mem_bytes_reader_read_uint`: `width` little-endian bytes,
zero-extended. -/
def readUintE (r : MemReader) (width : Nat) : Except Int (Nat × MemReader) :=
  if r.buffer.length < r.offset + width then .error (-ENOSPC)
  else .ok (leRead (r.buffer.drop r.offset) width, ⟨r.buffer, r.offset + width⟩)

/-- `__mem_bytes_reader_read_bytes`: `length` raw bytes. -/
def readBytesE (r : MemReader) (length : Nat) : Except Int (List Nat × MemReader) :=
  if r.buffer.length < r.offset + length then .error (-ENOSPC)
  else .ok ((r.buffer.drop r.offset).take length, ⟨r.buffer, r.offset + length⟩)

/-- Reinterpret the `Nat` gathered by `read_uint` as the C `int64_t` the
reader returns: values `≥ 2^63` are the negative two's-complement ones. -/
def asInt64 (n : Nat) : Int :=
  if n < 2 ^ 63 then (n : Int) else (n : Int) - 2 ^ 64

/-! ## Value encoder (`yajbe-encoder.c`)

The writer is the produced byte list; each encode function returns the
bytes it appends.  With the unbounded sink no write fails, so the C result
code of these functions is always `0` and is omitted. -/

/-- `yajbe_encode_null`: single byte `0x00`. -/
def yajbe_encode_null : List Nat := [0]

/-- `yajbe_encode_true`: single byte `0b11`. -/
def yajbe_encode_true : List Nat := [3]

/-- `yajbe_encode_false`: single byte `0b10`. -/
def yajbe_encode_false : List Nat := [2]

/-- `yajbe_encode_bool`. -/
def yajbe_encode_bool (b : Bool) : List Nat := if b then [3] else [2]

/-- `__yajbe_encode_length`: head byte with inline length, or head byte
with width marker followed by the little-endian delta. -/
def yajbe_encode_length (head inlineMax length : Nat) : List Nat :=
  if length ≤ inlineMax then [(head ||| length) % 256]
  else
    let delta := length - inlineMax
    let bytes := intBytesWidth delta
    ((head ||| (inlineMax + bytes)) % 256) :: leBytes delta bytes

/-- `__yajbe_encode_positive_int` / `__yajbe_encode_negative_int` /
`yajbe_encode_int`.  The argument is the `int64_t` value; `v > 0` takes the
positive family `010-----`, everything else (including `0`) the negative
family `011-----`. -/
def yajbe_encode_int (v : Int) : List Nat :=
  if 0 < v then
    if v ≤ 24 then [(64 ||| (v.toNat - 1)) % 256]
    else
      let x := v.toNat - 25
      let bytes := intBytesWidth x
      ((64 ||| (23 + bytes)) % 256) :: leBytes x bytes
  else
    let u := (-v).toNat
    if u ≤ 23 then [(96 ||| u) % 256]
    else
      let x := u - 24
      let bytes := intBytesWidth x
      ((96 ||| (23 + bytes)) % 256) :: leBytes x bytes

/-- `yajbe_encode_float`: head `0x05` then the 4 bytes of the IEEE-754
single-precision pattern (`memcpy` of the float, little-endian platform). -/
def yajbe_encode_float (bits : Nat) : List Nat := 5 :: leBytes bits 4

/-- `yajbe_encode_double`: head `0x06` then the 8 bytes of the IEEE-754
double-precision pattern. -/
def yajbe_encode_double (bits : Nat) : List Nat := 6 :: leBytes bits 8

/-- `yajbe_encode_string`: length header (family `110-----`, inline max 59)
followed by the UTF-8 bytes. -/
def yajbe_encode_string (utf8 : List Nat) : List Nat :=
  yajbe_encode_length 192 59 utf8.length ++ utf8

/-- `yajbe_encode_bytes`: length header (family `100-----`, inline max 59)
followed by the raw bytes. -/
def yajbe_encode_bytes (buf : List Nat) : List Nat :=
  yajbe_encode_length 128 59 buf.length ++ buf

/-- `yajbe_encode_array_end` / `yajbe_encode_object_end`: the streamed
container terminator, the literal byte `1`. -/
def yajbe_encode_container_end : List Nat := [1]

/-! ## Value decoder (`yajbe-decoder.c`) -/

/-- The `yajbe_item_type_t` enum values (see `yajbe.h`). -/
def YAJBE_NULL : Int := 0
def YAJBE_FALSE : Int := 1
def YAJBE_TRUE : Int := 2
def YAJBE_INT_SMALL : Int := 3
def YAJBE_INT_POSITIVE : Int := 4
def YAJBE_INT_NEGATIVE : Int := 5
def YAJBE_SMALL_STRING : Int := 6
def YAJBE_STRING : Int := 7
def YAJBE_SMALL_BYTES : Int := 10
def YAJBE_BYTES : Int := 11
def YAJBE_FLOAT_32 : Int := 13
def YAJBE_FLOAT_64 : Int := 14
def YAJBE_ARRAY : Int := 16
def YAJBE_ARRAY_EOF : Int := 17
def YAJBE_OBJECT : Int := 18
def YAJBE_OBJECT_EOF : Int := 19
def YAJBE_EOF : Int := 20

/-- The 256-entry head-byte classification table `TOKEN_MAP`
(`yajbe-decoder.c` lines 27-38), entry for entry. -/
def TOKEN_MAP : List Int :=
  [0, 20, 1, 2,
   12, 13, 14, 15,
   8, 9, 9,
   -1, -1, -1, -1, -1, -1, -1, -1, -1, -1, -1, -1, -1, -1, -1, -1, -1, -1, -1, -1, -1,
   16, 16, 16, 16, 16, 16, 16, 16, 16, 16, 16, 16, 16, 16, 16, 17,
   18, 18, 18, 18, 18, 18, 18, 18, 18, 18, 18, 18, 18, 18, 18, 19,
   3, 3, 3, 3, 3, 3, 3, 3, 3, 3, 3, 3, 3, 3, 3, 3, 3, 3, 3, 3, 3, 3, 3, 3, 4, 4, 4, 4, 4, 4, 4, 4,
   3, 3, 3, 3, 3, 3, 3, 3, 3, 3, 3, 3, 3, 3, 3, 3, 3, 3, 3, 3, 3, 3, 3, 3, 5, 5, 5, 5, 5, 5, 5, 5,
   10, 10, 10, 10, 10, 10, 10, 10, 10, 10, 10, 10, 10, 10, 10, 10, 10, 10, 10, 10, 10, 10, 10, 10, 10, 10, 10, 10, 10, 10, 10, 10, 10, 10, 10, 10, 10, 10, 10, 10, 10, 10, 10, 10, 10, 10, 10, 10, 10, 10, 10, 10, 10, 10, 10, 10, 10, 10, 10, 10, 11, 11, 11, 11,
   6, 6, 6, 6, 6, 6, 6, 6, 6, 6, 6, 6, 6, 6, 6, 6, 6, 6, 6, 6, 6, 6, 6, 6, 6, 6, 6, 6, 6, 6, 6, 6, 6, 6, 6, 6, 6, 6, 6, 6, 6, 6, 6, 6, 6, 6, 6, 6, 6, 6, 6, 6, 6, 6, 6, 6, 6, 6, 6, 6, 7, 7, 7, 7]

/-- `TOKEN_MAP[head]` for a head byte (always `0..255` since `read_u8`
masks with `& 0xff`). -/
def tokenOf (head : Nat) : Int := TOKEN_MAP.getD head (-1)

/-- `yajbe_decoder_t` scratch state: `item_head`, `item_type`,
`item_length`, initialised to `(-1, -1, 0)` by `yajbe_decoder_init`. -/
structure YajbeDecoder where
  itemHead : Int := -1
  itemType : Int := -1
  itemLength : Int := 0
deriving Repr, DecidableEq

/-- `yajbe_decode_next`: read one head byte, classify it through
`TOKEN_MAP`, compute `item_length` per kind.  Returns the C result code
(the item type, or a negative error) with the updated decoder and reader.
Where the C code reads a continuation that fails, the C leaves `*value`
indeterminate and then stores `base + value` before returning the error;
the indeterminate value is modelled as `0` (no claim observes it). -/
def yajbe_decode_next (d : YajbeDecoder) (r : MemReader) :
    Int × YajbeDecoder × MemReader :=
  match readU8 r with
  | .error e => (e, d, r)
  | .ok (head, r1) =>
    let t := tokenOf head
    let d1 : YajbeDecoder := { itemHead := (head : Int), itemType := t, itemLength := d.itemLength }
    if t = YAJBE_ARRAY ∨ t = YAJBE_OBJECT then
      -- __read_item_count
      let w := head &&& 15
      if w ≤ 10 then (t, { d1 with itemLength := (w : Int) }, r1)
      else
        match readUintE r1 (w - 10) with
        | .error e => (e, { d1 with itemLength := 10 }, r1)
        | .ok (v, r2) => (t, { d1 with itemLength := 10 + asInt64 v }, r2)
    else if t = YAJBE_ARRAY_EOF ∨ t = YAJBE_OBJECT_EOF then
      -- item_length = 1L << 63, the int64 sign bit
      (t, { d1 with itemLength := -(2 ^ 63) }, r1)
    else if t = YAJBE_SMALL_BYTES ∨ t = YAJBE_SMALL_STRING then
      (t, { d1 with itemLength := ((head &&& 63 : Nat) : Int) }, r1)
    else if t = YAJBE_BYTES ∨ t = YAJBE_STRING then
      -- __read_item_length
      match readUintE r1 ((head &&& 63) - 59) with
      | .error e => (e, { d1 with itemLength := 59 }, r1)
      | .ok (v, r2) => (t, { d1 with itemLength := 59 + asInt64 v }, r2)
    else if t = YAJBE_INT_SMALL then
      (t, { d1 with itemLength := 0 }, r1)
    else if t = YAJBE_INT_POSITIVE ∨ t = YAJBE_INT_NEGATIVE then
      (t, { d1 with itemLength := ((head &&& 31 : Nat) : Int) - 23 }, r1)
    else if t = YAJBE_FLOAT_32 then
      (t, { d1 with itemLength := 4 }, r1)
    else if t = YAJBE_FLOAT_64 then
      (t, { d1 with itemLength := 8 }, r1)
    else
      (t, d1, r1)

/-- `yajbe_decode_bool`: `*value` from `item_type`, `-EINVAL` otherwise. -/
def yajbe_decode_bool (d : YajbeDecoder) : Except Int Bool :=
  if d.itemType = YAJBE_TRUE then .ok true
  else if d.itemType = YAJBE_FALSE then .ok false
  else .error (-EINVAL)

/-- `yajbe_decode_int` (and its `__decode_small_int`,
`__decode_int_positive`, `__decode_int_negative` helpers). -/
def yajbe_decode_int (d : YajbeDecoder) (r : MemReader) :
    Except Int (Int × MemReader) :=
  if d.itemType = YAJBE_INT_SMALL then
    let head := d.itemHead.toNat
    let signed := head &&& 96 = 96
    let w := head &&& 31
    .ok (if signed then -(w : Int) else 1 + (w : Int), r)
  else if d.itemType = YAJBE_INT_POSITIVE then
    match readUintE r d.itemLength.toNat with
    | .error e => .error e
    | .ok (v, r1) => .ok (asInt64 v + 25, r1)
  else if d.itemType = YAJBE_INT_NEGATIVE then
    match readUintE r d.itemLength.toNat with
    | .error e => .error e
    | .ok (v, r1) => .ok (-(asInt64 v + 24), r1)
  else .error (-EINVAL)

/-- `yajbe_decode_float`: 4 little-endian bytes, `memcpy`'d into the float;
the result is the recovered 32-bit pattern. -/
def yajbe_decode_float (d : YajbeDecoder) (r : MemReader) :
    Except Int (Nat × MemReader) :=
  if d.itemType ≠ YAJBE_FLOAT_32 then .error (-EINVAL)
  else
    match readUintE r 4 with
    | .error e => .error e
    | .ok (v, r1) => .ok (v % 2 ^ 32, r1)

/-- `yajbe_decode_double`: 8 little-endian bytes as the 64-bit pattern. -/
def yajbe_decode_double (d : YajbeDecoder) (r : MemReader) :
    Except Int (Nat × MemReader) :=
  if d.itemType ≠ YAJBE_FLOAT_64 then .error (-EINVAL)
  else
    match readUintE r 8 with
    | .error e => .error e
    | .ok (v, r1) => .ok (v % 2 ^ 64, r1)

/-- `yajbe_decode_bytes`: type must be BYTES or SMALL_BYTES and the caller
buffer must hold `item_length` bytes; the result is the bytes read. -/
def yajbe_decode_bytes (d : YajbeDecoder) (r : MemReader) (buflen : Nat) :
    Except Int (List Nat × MemReader) :=
  if (d.itemType ≠ YAJBE_SMALL_BYTES ∧ d.itemType ≠ YAJBE_BYTES)
      ∨ (buflen : Int) < d.itemLength then .error (-EINVAL)
  else readBytesE r d.itemLength.toNat

/-- `yajbe_decode_string`: as `yajbe_decode_bytes` for the string kinds. -/
def yajbe_decode_string (d : YajbeDecoder) (r : MemReader) (buflen : Nat) :
    Except Int (List Nat × MemReader) :=
  if (d.itemType ≠ YAJBE_SMALL_STRING ∧ d.itemType ≠ YAJBE_STRING)
      ∨ (buflen : Int) < d.itemLength then .error (-EINVAL)
  else readBytesE r d.itemLength.toNat

/-- `yajbe_decode_next_null` (`yajbe-decoder.c` lines 115-119): on a
failed `next` it propagates the negative code (`r < 0 ? r : -EINVAL`). -/
def yajbe_decode_next_null (d : YajbeDecoder) (r : MemReader) :
    Int × YajbeDecoder × MemReader :=
  let (rc, d1, r1) := yajbe_decode_next d r
  if rc = YAJBE_NULL then (0, d1, r1)
  else if rc < 0 then (rc, d1, r1)
  else (-EINVAL, d1, r1)

/-- `yajbe_decode_next_bool` (`yajbe-decoder.c` lines 153-157): note that
when `yajbe_decode_next` fails (`r < 0`) the C code does `return 0`, the
success code, leaving `*value` untouched (modelled as `none`). -/
def yajbe_decode_next_bool (d : YajbeDecoder) (r : MemReader) :
    Int × YajbeDecoder × MemReader × Option Bool :=
  let (rc, d1, r1) := yajbe_decode_next d r
  if rc < 0 then (0, d1, r1, none)
  else
    match yajbe_decode_bool d1 with
    | .ok b => (0, d1, r1, some b)
    | .error e => (e, d1, r1, none)

/-- `yajbe_decode_next_int` (lines 188-192): same `return 0` on a failed
`next`. -/
def yajbe_decode_next_int (d : YajbeDecoder) (r : MemReader) :
    Int × YajbeDecoder × MemReader × Option Int :=
  let (rc, d1, r1) := yajbe_decode_next d r
  if rc < 0 then (0, d1, r1, none)
  else
    match yajbe_decode_int d1 r1 with
    | .ok (v, r2) => (0, d1, r2, some v)
    | .error e => (e, d1, r1, none)

/-- `yajbe_decode_next_float` (lines 204-208). -/
def yajbe_decode_next_float (d : YajbeDecoder) (r : MemReader) :
    Int × YajbeDecoder × MemReader × Option Nat :=
  let (rc, d1, r1) := yajbe_decode_next d r
  if rc < 0 then (0, d1, r1, none)
  else
    match yajbe_decode_float d1 r1 with
    | .ok (v, r2) => (0, d1, r2, some v)
    | .error e => (e, d1, r1, none)

/-- `yajbe_decode_next_double` (lines 220-224). -/
def yajbe_decode_next_double (d : YajbeDecoder) (r : MemReader) :
    Int × YajbeDecoder × MemReader × Option Nat :=
  let (rc, d1, r1) := yajbe_decode_next d r
  if rc < 0 then (0, d1, r1, none)
  else
    match yajbe_decode_double d1 r1 with
    | .ok (v, r2) => (0, d1, r2, some v)
    | .error e => (e, d1, r1, none)

/-- `yajbe_decode_next_bytes` (lines 235-239). -/
def yajbe_decode_next_bytes (d : YajbeDecoder) (r : MemReader) (buflen : Nat) :
    Int × YajbeDecoder × MemReader × Option (List Nat) :=
  let (rc, d1, r1) := yajbe_decode_next d r
  if rc < 0 then (0, d1, r1, none)
  else
    match yajbe_decode_bytes d1 r1 buflen with
    | .ok (v, r2) => (0, d1, r2, some v)
    | .error e => (e, d1, r1, none)

/-- `yajbe_decode_next_string` (lines 250-254). -/
def yajbe_decode_next_string (d : YajbeDecoder) (r : MemReader) (buflen : Nat) :
    Int × YajbeDecoder × MemReader × Option (List Nat) :=
  let (rc, d1, r1) := yajbe_decode_next d r
  if rc < 0 then (0, d1, r1, none)
  else
    match yajbe_decode_string d1 r1 buflen with
    | .ok (v, r2) => (0, d1, r2, some v)
    | .error e => (e, d1, r1, none)

/-! ## Primitive values and the round-trip driver

`YajbeValue` is a primitive value of the encodable domain: null, boolean,
`int64`, a float32/float64 bit pattern, a byte string, a UTF-8 string.
`encodeValue` is the corresponding value-encoder call; `decodeValue` is
`yajbe_decode_next` followed by the matching typed read (with a caller
buffer of `item_length` bytes for the bytes/string reads). -/

inductive YajbeValue where
  | vnull
  | vbool (b : Bool)
  | vint (i : Int)
  | vfloat32 (bits : Nat)
  | vfloat64 (bits : Nat)
  | vbytes (bs : List Nat)
  | vstring (bs : List Nat)
deriving Repr, DecidableEq

/-- The encodable domain: `int64` values whose negation is also defined
(the C encoder computes `-value`, undefined on `INT64_MIN`), 32/64-bit
float patterns, and byte/string payloads of `uint8` bytes whose length
continuation fits the at most 4 width bits a string/bytes head can carry
(`59 + (2^32 - 1)` bytes). -/
def wfValue : YajbeValue → Prop
  | .vnull => True
  | .vbool _ => True
  | .vint i => -(2 ^ 63) < i ∧ i < 2 ^ 63
  | .vfloat32 bits => bits < 2 ^ 32
  | .vfloat64 bits => bits < 2 ^ 64
  | .vbytes bs => bs.length < 59 + 2 ^ 32 ∧ ∀ b ∈ bs, b < 256
  | .vstring bs => bs.length < 59 + 2 ^ 32 ∧ ∀ b ∈ bs, b < 256

instance : DecidablePred wfValue := by
  intro v
  cases v <;> simp only [wfValue] <;> infer_instance

def encodeValue : YajbeValue → List Nat
  | .vnull => yajbe_encode_null
  | .vbool b => yajbe_encode_bool b
  | .vint i => yajbe_encode_int i
  | .vfloat32 bits => yajbe_encode_float bits
  | .vfloat64 bits => yajbe_encode_double bits
  | .vbytes bs => yajbe_encode_bytes bs
  | .vstring bs => yajbe_encode_string bs

def decodeValue (bytes : List Nat) : Option YajbeValue :=
  let res := yajbe_decode_next {} ⟨bytes, 0⟩
  let t := res.1
  let d := res.2.1
  let r := res.2.2
  if t = YAJBE_NULL then some .vnull
  else if t = YAJBE_TRUE ∨ t = YAJBE_FALSE then
    match yajbe_decode_bool d with
    | .ok b => some (.vbool b)
    | .error _ => none
  else if t = YAJBE_INT_SMALL ∨ t = YAJBE_INT_POSITIVE ∨ t = YAJBE_INT_NEGATIVE then
    match yajbe_decode_int d r with
    | .ok (v, _) => some (.vint v)
    | .error _ => none
  else if t = YAJBE_FLOAT_32 then
    match yajbe_decode_float d r with
    | .ok (bits, _) => some (.vfloat32 bits)
    | .error _ => none
  else if t = YAJBE_FLOAT_64 then
    match yajbe_decode_double d r with
    | .ok (bits, _) => some (.vfloat64 bits)
    | .error _ => none
  else if t = YAJBE_SMALL_BYTES ∨ t = YAJBE_BYTES then
    match yajbe_decode_bytes d r d.itemLength.toNat with
    | .ok (bs, _) => some (.vbytes bs)
    | .error _ => none
  else if t = YAJBE_SMALL_STRING ∨ t = YAJBE_STRING then
    match yajbe_decode_string d r d.itemLength.toNat with
    | .ok (bs, _) => some (.vstring bs)
    | .error _ => none
  else none

/-! ## Field-name encoder (`fields-encoder.c`)

The open-addressed table: `entries` is the fixed-size slot array
(`none` is the `entries[hindex].name == NULL` empty slot), `entriesCount`
the number of stored keys, `lastKey` the `(last_key, last_keylen)` borrow.
A key is its byte list, so the C `(name, length)` pair is `name` with
`name.length`.  The unbounded while loop of `yajbe_field_encoder_hadd` is
run on `entries.length` fuel: with a power-of-two table that holds an
empty slot the probe reaches a terminating slot within that many steps
(established in the C9 development); on exhausted fuel — where the C loop
would not terminate — the model returns `-ENOSPC`. -/

structure FieldEncEntry where
  name : List Nat
  hash : Nat
  index : Nat
deriving Repr, DecidableEq

structure FieldEncoder where
  entries : List (Option FieldEncEntry)
  entriesCount : Nat
  lastKey : Option (List Nat)
deriving Repr, DecidableEq

/-- `yajbe_field_encoder_init_fixed`: zeroed slot array, count 0, no
last key. -/
def yajbe_field_encoder_init_fixed (size : Nat) : FieldEncoder :=
  ⟨List.replicate size none, 0, none⟩

/-- One step of `__hash_fnv_1a`: `hash ^= key[i]; hash *= 0x811C9DC5`
over `uint32_t`.  `key[i]` is a (signed) `char` widened to the `uint32`
accumulator, so bytes `≥ 0x80` arrive sign-extended. -/
def fnv1aStep (h b : Nat) : Nat :=
  ((h ^^^ (if b % 256 < 128 then b % 256 else 0xFFFFFF00 + b % 256))
    * 0x811C9DC5) % 2 ^ 32

/-- `__hash_fnv_1a` with initial state `0x811c9dc5`. -/
def hash_fnv_1a (key : List Nat) : Nat :=
  key.foldl fnv1aStep 0x811c9dc5

/-- `__field_name_entry_equals`: hash, length and byte-wise equality
(the `name` list equality covers length and bytes). -/
def fieldEntryEquals (e : FieldEncEntry) (khash : Nat) (key : List Nat) : Prop :=
  e.hash = khash ∧ e.name = key

instance (e : FieldEncEntry) (khash : Nat) (key : List Nat) :
    Decidable (fieldEntryEquals e khash key) := by
  unfold fieldEntryEquals; infer_instance

/-- The probe loop of `yajbe_field_encoder_hget`: linear probing from
`hindex`, at most `entries_size` (the fuel) iterations, `-1` on an empty
slot or exhausted probe count. -/
def hgetLoop (entries : List (Option FieldEncEntry)) (mask khash : Nat)
    (key : List Nat) : Nat → Nat → Int
  | _, 0 => -1
  | hindex, fuel + 1 =>
    match entries.getD hindex none with
    | none => -1
    | some e =>
      if fieldEntryEquals e khash key then (e.index : Int)
      else hgetLoop entries mask khash key ((hindex + 1) &&& mask) fuel

/-- `yajbe_field_encoder_hget`. -/
def yajbe_field_encoder_hget (fe : FieldEncoder) (khash : Nat)
    (key : List Nat) : Int :=
  hgetLoop fe.entries (fe.entries.length - 1) khash key
    (khash &&& (fe.entries.length - 1)) fe.entries.length

/-- The probe of `yajbe_field_encoder_hadd`'s while loop: the existing
index (`inl`) on a match, the empty slot position (`inr`) otherwise;
`none` when the fuel runs out (where the C loop would spin forever). -/
def haddProbe (entries : List (Option FieldEncEntry)) (mask khash : Nat)
    (key : List Nat) : Nat → Nat → Option (Nat ⊕ Nat)
  | _, 0 => none
  | hindex, fuel + 1 =>
    match entries.getD hindex none with
    | none => some (.inr hindex)
    | some e =>
      if fieldEntryEquals e khash key then some (.inl e.index)
      else haddProbe entries mask khash key ((hindex + 1) &&& mask) fuel

/-- `yajbe_field_encoder_hadd`: `-ENOSPC` on a full table, the existing
index on a match, otherwise `index = count++` with
`__field_name_entry_set` on the empty slot. -/
def yajbe_field_encoder_hadd (fe : FieldEncoder) (khash : Nat)
    (key : List Nat) : Int × FieldEncoder :=
  if fe.entriesCount = fe.entries.length then (-ENOSPC, fe)
  else
    match haddProbe fe.entries (fe.entries.length - 1) khash key
        (khash &&& (fe.entries.length - 1)) fe.entries.length with
    | some (.inl idx) => ((idx : Int), fe)
    | some (.inr slot) =>
      ((fe.entriesCount : Int),
       { fe with
          entries := fe.entries.set slot (some ⟨key, khash, fe.entriesCount⟩),
          entriesCount := fe.entriesCount + 1 })
    | none => (-ENOSPC, fe)

/-- `__prefix` (`fields-encoder.c` lines 104-113): the `for` loop over
`i < min(last_keylen, keylen)` returning the first mismatch position,
else the minimum length — structurally, the common leading run of the two
lists. -/
def commonPfx : List Nat → List Nat → Nat
  | x :: xs, y :: ys => if x = y then 1 + commonPfx xs ys else 0
  | _, _ => 0

/-- The loop of `__suffix` (lines 115-125): `i` runs from 1 while
`i < len`, comparing `last_key[last_keylen - i]` with `key[keylen - i]`
and returning `i - 1` at the first mismatch, else `len`.  The fuel is
`len`, enough for every iteration the C loop makes.  Note the caller
passes the unadvanced `key` with `keylen = keylen_full - prefix`, so the
compared key bytes sit `prefix` positions left of the key's real tail. -/
def suffixLoop (lastKey key : List Nat) (lastLen keyLen len : Nat) :
    Nat → Nat → Nat
  | _, 0 => len
  | i, fuel + 1 =>
    if i < len then
      if lastKey.getD (lastLen - i) 0 ≠ key.getD (keyLen - i) 0 then i - 1
      else suffixLoop lastKey key lastLen keyLen len (i + 1) fuel
    else len

/-- `__suffix`: `len = min(last_keylen, keylen)`; the `pfx` parameter is
declared by the C function but never used in its body. -/
def field_suffix (lastKey key : List Nat) (_pfx keyLen : Nat) : Nat :=
  let len := min lastKey.length keyLen
  suffixLoop lastKey key lastKey.length keyLen len 1 len

/-- `__write_length` (lines 127-142): result code and emitted bytes; the
30/285/65820 tiers, the two-byte extension big-endian; `-1` and no bytes
above 65819. -/
def field_write_length (head len : Nat) : Int × List Nat :=
  if len < 30 then (0, [(head ||| len) % 256])
  else if len ≤ 284 then (0, [(head ||| 0x1e) % 256, (len - 29) % 256])
  else if len ≤ 65819 then
    (0, [(head ||| 0x1f) % 256, (len - 284) / 256 % 256, (len - 284) % 256])
  else (-1, [])

/-- `__encode_prefix` (lines 149-156): head family `110-----`, the length
header for `keylen - prefix`, one prefix byte, then the key bytes from
`key + prefix` for `length` bytes. -/
def encodePfxToken (key : List Nat) (pfx : Nat) : List Nat :=
  (field_write_length 0xc0 (key.length - pfx)).2 ++ [pfx % 256]
    ++ (key.drop pfx).take (key.length - pfx)

/-- `__encode_prefix_suffix` (lines 158-166): head family `111-----`, the
length header for `keylen - prefix - suffix`, a prefix and a suffix byte,
then — as the C writes it — `keylen - suffix` bytes starting at
`key + prefix` (not the `keylen - prefix - suffix` bytes the header
declares). -/
def encodePfxSfxToken (key : List Nat) (pfx sfx : Nat) : List Nat :=
  (field_write_length 0xe0 (key.length - pfx - sfx)).2
    ++ [pfx % 256, sfx % 256]
    ++ (key.drop pfx).take (key.length - sfx)

/-- `__encode_full_field_name` (lines 168-173): head family `100-----`,
the length header for `keylen`, then the key bytes. -/
def encodeFullNameToken (key : List Nat) : List Nat :=
  (field_write_length 0x80 key.length).2 ++ key

/-- `yajbe_field_hencode` (lines 175-202): indexed form when the table
already holds the key; otherwise the delta heuristic against `last_key`
(only when it is set and longer than 4), then `hadd` — whose result the C
discards — and `last_key := key`, returning 0. -/
def yajbe_field_hencode (fe : FieldEncoder) (khash : Nat) (key : List Nat) :
    Int × List Nat × FieldEncoder :=
  let index := yajbe_field_encoder_hget fe khash key
  if 0 ≤ index then
    let (rc, bytes) := field_write_length 0xa0 index.toNat
    (rc, bytes, { fe with lastKey := some key })
  else
    let bytes :=
      match fe.lastKey with
      | some lk =>
        if 4 < lk.length then
          let pfx := min 0xff (commonPfx lk key)
          let sfx := field_suffix lk key pfx (key.length - pfx)
          if 2 < sfx then encodePfxSfxToken key pfx (min 0xff sfx)
          else if 2 < pfx then encodePfxToken key pfx
          else encodeFullNameToken key
        else encodeFullNameToken key
      | none => encodeFullNameToken key
    let fe1 := (yajbe_field_encoder_hadd fe khash key).2
    (0, bytes, { fe1 with lastKey := some key })

/-- `yajbe_field_encode`: hash, then `yajbe_field_hencode`. -/
def yajbe_field_encode (fe : FieldEncoder) (key : List Nat) :
    Int × List Nat × FieldEncoder :=
  yajbe_field_hencode fe (hash_fnv_1a key) key

/-- Feed a key sequence through `yajbe_field_encode`, collecting each
call's result code and emitted bytes. -/
def runFieldEncode (fe : FieldEncoder) :
    List (List Nat) → FieldEncoder × List (Int × List Nat)
  | [] => (fe, [])
  | k :: ks =>
    let step := yajbe_field_encode fe k
    let rest := runFieldEncode step.2.2 ks
    (rest.1, (step.1, step.2.1) :: rest.2)

/-- The whole byte stream of a key sequence. -/
def runFieldEncodeBytes (fe : FieldEncoder) (ks : List (List Nat)) : List Nat :=
  ((runFieldEncode fe ks).2.map (·.2)).flatten

/-! ## Field-name decoder (`fields-decoder.c`)

`entries` is the in-order table of reconstructed names (the C `entries`
array up to `entries_count`, each name materialised instead of borrowed
from the arena); the arena itself is tracked by its capacity `bufSize`
and cursor `bufOff` so exhaustion faults exactly as in the C.  `oob`
marks the place where `__read_indexed_field_name` reads
`entries[index]` outside the appended range — the C performs that access
unchecked. -/

structure FieldDecoder where
  entries : List (List Nat)
  entriesSize : Nat
  bufSize : Nat
  bufOff : Nat
  lastField : List Nat
deriving Repr, DecidableEq

/-- `yajbe_field_decoder_init_fixed`. -/
def yajbe_field_decoder_init_fixed (entriesSize bufSize : Nat) : FieldDecoder :=
  ⟨[], entriesSize, bufSize, 0, []⟩

inductive FieldDecodeResult where
  | ok (name : List Nat)
  | err (code : Int)
  | oob
deriving Repr, DecidableEq

/-- `memcpy(dst, src, n)` out of a list: the first `n` bytes, padded with
the model's stand-in `0` for the indeterminate bytes the C copies when
`n` exceeds the source (never reached on the streams of the claims). -/
def listTakePad (xs : List Nat) (n : Nat) : List Nat :=
  xs.take n ++ List.replicate (n - xs.length) 0

/-- A raw read whose C result code is ignored by the caller: on failure
the destination keeps indeterminate bytes (modelled `0`) and the cursor
does not advance. -/
def readBytesTotal (r : MemReader) (n : Nat) : List Nat × MemReader :=
  match readBytesE r n with
  | .ok (bs, r1) => (bs, r1)
  | .error _ => (List.replicate n 0, r)

/-- `__read_length` (`fields-decoder.c` lines 61-73): low 5 bits; tier 30
adds one byte, tier 31 two bytes big-endian (`284 + 256*b0 + b1`); the
inner read results are ignored by the C (failure leaves the value
indeterminate, modelled `0`, cursor unmoved). -/
def fieldReadLength (r : MemReader) (head : Nat) : Nat × MemReader :=
  let len := head &&& 31
  if len < 30 then (len, r)
  else if len = 30 then
    match readU8 r with
    | .ok (v, r1) => (29 + v, r1)
    | .error _ => (29, r)
  else
    match readBytesE r 2 with
    | .ok (buf, r1) => (284 + 256 * (buf.getD 0 0 % 256) + buf.getD 1 0 % 256, r1)
    | .error _ => (284, r)

/-- `yajbe_field_decode` (lines 149-160) with its four branch helpers
`__read_full_field_name`, `__read_indexed_field_name`, `__read_prefix`,
`__read_prefix_suffix`: dispatch on the top three head bits; full/delta
forms append a new entry (checking the entry table and the arena),
the indexed form reads `entries[index]` without an index check. -/
def fieldDecodeStep (fd : FieldDecoder) (r : MemReader) :
    FieldDecodeResult × FieldDecoder × MemReader :=
  match readU8 r with
  | .error _ => (.err (-1), fd, r)
  | .ok (head, r1) =>
    match (head >>> 5) &&& 7 with
    | 4 =>
      if fd.entries.length = fd.entriesSize then (.err (-ENOSPC), fd, r1)
      else
        let (length, r2) := fieldReadLength r1 head
        if fd.bufSize < fd.bufOff + length then (.err (-ENOSPC), fd, r2)
        else
          let (name, r3) := readBytesTotal r2 length
          (.ok name,
           { fd with entries := fd.entries ++ [name],
                     bufOff := fd.bufOff + length, lastField := name }, r3)
    | 5 =>
      let (index, r2) := fieldReadLength r1 head
      match fd.entries.get? index with
      | some name => (.ok name, { fd with lastField := name }, r2)
      | none => (.oob, fd, r2)
    | 6 =>
      if fd.entries.length = fd.entriesSize then (.err (-ENOSPC), fd, r1)
      else
        let (length, r2) := fieldReadLength r1 head
        let pr := match readU8 r2 with
          | .ok (v, r3) => (v, r3)
          | .error _ => (0, r2)
        let p := pr.1
        if fd.bufSize < fd.bufOff + (p + length) then (.err (-ENOSPC), fd, pr.2)
        else
          let (mid, r4) := readBytesTotal pr.2 length
          let name := listTakePad fd.lastField p ++ mid
          (.ok name,
           { fd with entries := fd.entries ++ [name],
                     bufOff := fd.bufOff + (p + length), lastField := name }, r4)
    | 7 =>
      if fd.entries.length = fd.entriesSize then (.err (-ENOSPC), fd, r1)
      else
        let (length, r2) := fieldReadLength r1 head
        let (delta, r3) := readBytesTotal r2 2
        let p := delta.getD 0 0
        let s := delta.getD 1 0
        if fd.bufSize < fd.bufOff + (p + s + length) then (.err (-ENOSPC), fd, r3)
        else
          let (mid, r4) := readBytesTotal r3 length
          let name := listTakePad fd.lastField p ++ mid
            ++ fd.lastField.drop (fd.lastField.length - s)
          (.ok name,
           { fd with entries := fd.entries ++ [name],
                     bufOff := fd.bufOff + (p + s + length), lastField := name }, r4)
    | _ => (.err (-1), fd, r1)

/-- Decode `n` field names in sequence, collecting the results. -/
def runFieldDecode (fd : FieldDecoder) (r : MemReader) :
    Nat → List FieldDecodeResult × FieldDecoder × MemReader
  | 0 => ([], fd, r)
  | n + 1 =>
    let step := fieldDecodeStep fd r
    let rest := runFieldDecode step.2.1 step.2.2 n
    (step.1 :: rest.1, rest.2)

/-- The key sequence of `test-field.c` / spec scenario 4:
`["foo","bar","test_foo","test_bar","foo","prefix_foo_suffix",
"prefix_bar_suffix","bar","test_foo"]` as byte lists. -/
def testFieldKeys : List (List Nat) :=
  [[102, 111, 111], [98, 97, 114],
   [116, 101, 115, 116, 95, 102, 111, 111],
   [116, 101, 115, 116, 95, 98, 97, 114],
   [102, 111, 111],
   [112, 114, 101, 102, 105, 120, 95, 102, 111, 111, 95, 115, 117, 102, 102, 105, 120],
   [112, 114, 101, 102, 105, 120, 95, 98, 97, 114, 95, 115, 117, 102, 102, 105, 120],
   [98, 97, 114],
   [116, 101, 115, 116, 95, 102, 111, 111]]

/-! ## First-seen order and the open-addressed-table invariant

`firstSeen ks` is the dictionary contents after feeding `ks`: the
distinct keys in first-seen order (the spec's "the first `count`
inserted keys have indices 0..count-1").  `posIn seen k` is a key's
position in that list — its assigned index.  `probeDist S h p` is the
cyclic probe distance from home slot `h` to slot `p` in a table of `S`
slots, and `EncInv` is the table invariant the C9 development carries:
the slot array has `S` slots and `count = seen.length`; every occupied
slot stores its key's FNV hash and assigned index, with every slot on
the probe path from the key's home occupied (linear-probing cluster
integrity); every seen key is stored; and distinct slots hold distinct
keys. -/

def firstSeen (ks : List (List Nat)) : List (List Nat) :=
  ks.foldl (fun acc k => if k ∈ acc then acc else acc ++ [k]) []

def posIn : List (List Nat) → List Nat → Nat
  | [], _ => 0
  | x :: xs, k => if x = k then 0 else 1 + posIn xs k

def probeDist (S h p : Nat) : Nat := (p + S - h) % S

def EncInv (S : Nat) (fe : FieldEncoder) (seen : List (List Nat)) : Prop :=
  fe.entries.length = S
  ∧ fe.entriesCount = seen.length
  ∧ seen.Nodup
  ∧ (∀ p e, p < S → fe.entries.getD p none = some e →
      e.hash = hash_fnv_1a e.name
      ∧ seen[e.index]? = some e.name
      ∧ ∀ t, t < probeDist S (e.hash % S) p →
          fe.entries.getD ((e.hash % S + t) % S) none ≠ none)
  ∧ (∀ j name, seen[j]? = some name →
      ∃ p, p < S ∧ fe.entries.getD p none = some ⟨name, hash_fnv_1a name, j⟩)
  ∧ (∀ p1 p2 e1 e2, p1 < S → p2 < S →
      fe.entries.getD p1 none = some e1 → fe.entries.getD p2 none = some e2 →
      e1.name = e2.name → p1 = p2)

/-! ## Supporting lemmas -/

/-- The ladder agrees with the C formula `((64 - clzll v) + 7) >> 3`
(with `64 - clzll v = Nat.log2 v + 1` significant bits) on every nonzero
64-bit value. -/
theorem intBytesWidth_eq_log2 (v : Nat) (h0 : v ≠ 0) (h64 : v < 2 ^ 64) :
    intBytesWidth v = (Nat.log2 v + 1 + 7) / 8 := by
  unfold intBytesWidth
  split
  · have := (Nat.log2_lt h0).mpr (by omega : v < 2 ^ 8)
    omega
  · split
    · have h1 := (Nat.log2_lt h0).mpr (by omega : v < 2 ^ 16)
      have h2 : ¬ Nat.log2 v < 8 := fun hc => by
        have := (Nat.log2_lt h0).mp hc; omega
      omega
    · split
      · have h1 := (Nat.log2_lt h0).mpr (by omega : v < 2 ^ 24)
        have h2 : ¬ Nat.log2 v < 16 := fun hc => by
          have := (Nat.log2_lt h0).mp hc; omega
        omega
      · split
        · have h1 := (Nat.log2_lt h0).mpr (by omega : v < 2 ^ 32)
          have h2 : ¬ Nat.log2 v < 24 := fun hc => by
            have := (Nat.log2_lt h0).mp hc; omega
          omega
        · split
          · have h1 := (Nat.log2_lt h0).mpr (by omega : v < 2 ^ 40)
            have h2 : ¬ Nat.log2 v < 32 := fun hc => by
              have := (Nat.log2_lt h0).mp hc; omega
            omega
          · split
            · have h1 := (Nat.log2_lt h0).mpr (by omega : v < 2 ^ 48)
              have h2 : ¬ Nat.log2 v < 40 := fun hc => by
                have := (Nat.log2_lt h0).mp hc; omega
              omega
            · split
              · have h1 := (Nat.log2_lt h0).mpr (by omega : v < 2 ^ 56)
                have h2 : ¬ Nat.log2 v < 48 := fun hc => by
                  have := (Nat.log2_lt h0).mp hc; omega
                omega
              · have h1 := (Nat.log2_lt h0).mpr h64
                have h2 : ¬ Nat.log2 v < 56 := fun hc => by
                  have := (Nat.log2_lt h0).mp hc; omega
                omega

theorem leBytes_length (v w : Nat) : (leBytes v w).length = w := by
  induction w generalizing v with
  | zero => rfl
  | succ w ih => simp [leBytes, ih]

theorem leRead_leBytes_append (v w : Nat) (rest : List Nat) :
    leRead (leBytes v w ++ rest) w = v % 256 ^ w := by
  induction w generalizing v with
  | zero => simp [leBytes, leRead, Nat.mod_one]
  | succ w ih =>
    have hpow : (256 : Nat) ^ (w + 1) = 256 * 256 ^ w := by ring
    show (v % 256) % 256 + 256 * leRead (leBytes (v / 256) w ++ rest) w
        = v % 256 ^ (w + 1)
    rw [ih, hpow, Nat.mod_mul]
    omega

theorem leRead_leBytes_exact {v w : Nat} (h : v < 256 ^ w) (rest : List Nat) :
    leRead (leBytes v w ++ rest) w = v := by
  rw [leRead_leBytes_append, Nat.mod_eq_of_lt h]

theorem lt_pow_intBytesWidth {v : Nat} (h : v < 2 ^ 64) :
    v < 256 ^ intBytesWidth v := by
  unfold intBytesWidth
  repeat' split
  all_goals (norm_num at *; try omega)

theorem intBytesWidth_pos (v : Nat) : 1 ≤ intBytesWidth v := by
  unfold intBytesWidth
  repeat' split
  all_goals norm_num

theorem intBytesWidth_le_eight (v : Nat) : intBytesWidth v ≤ 8 := by
  unfold intBytesWidth
  repeat' split
  all_goals norm_num

theorem intBytesWidth_le_four {v : Nat} (h : v < 2 ^ 32) :
    intBytesWidth v ≤ 4 := by
  unfold intBytesWidth
  repeat' split
  all_goals (norm_num at *; try omega)

/-! Evaluations of `yajbe_decode_next` on a stream headed by a byte of a
known classification, one lemma per kind the round-trip proof meets. -/

theorem decode_next_int_small (d : YajbeDecoder) (h : Nat) (rest : List Nat)
    (hh : h < 256) (ht : tokenOf h = YAJBE_INT_SMALL) :
    yajbe_decode_next d ⟨h :: rest, 0⟩ =
      (YAJBE_INT_SMALL, ⟨(h : Int), YAJBE_INT_SMALL, 0⟩, ⟨h :: rest, 1⟩) := by
  unfold yajbe_decode_next readU8
  norm_num [List.getD, Nat.mod_eq_of_lt hh, ht, YAJBE_INT_POSITIVE, YAJBE_ARRAY,
    YAJBE_OBJECT, YAJBE_ARRAY_EOF, YAJBE_OBJECT_EOF, YAJBE_SMALL_BYTES,
    YAJBE_SMALL_STRING, YAJBE_BYTES, YAJBE_STRING, YAJBE_INT_SMALL,
    YAJBE_INT_NEGATIVE, YAJBE_FLOAT_32, YAJBE_FLOAT_64]

theorem decode_next_int_pos (d : YajbeDecoder) (h : Nat) (rest : List Nat)
    (hh : h < 256) (ht : tokenOf h = YAJBE_INT_POSITIVE) :
    yajbe_decode_next d ⟨h :: rest, 0⟩ =
      (YAJBE_INT_POSITIVE,
       ⟨(h : Int), YAJBE_INT_POSITIVE, ((h &&& 31 : Nat) : Int) - 23⟩,
       ⟨h :: rest, 1⟩) := by
  unfold yajbe_decode_next readU8
  norm_num [List.getD, Nat.mod_eq_of_lt hh, ht, YAJBE_INT_POSITIVE, YAJBE_ARRAY,
    YAJBE_OBJECT, YAJBE_ARRAY_EOF, YAJBE_OBJECT_EOF, YAJBE_SMALL_BYTES,
    YAJBE_SMALL_STRING, YAJBE_BYTES, YAJBE_STRING, YAJBE_INT_SMALL,
    YAJBE_INT_NEGATIVE, YAJBE_FLOAT_32, YAJBE_FLOAT_64]

theorem decode_next_int_neg (d : YajbeDecoder) (h : Nat) (rest : List Nat)
    (hh : h < 256) (ht : tokenOf h = YAJBE_INT_NEGATIVE) :
    yajbe_decode_next d ⟨h :: rest, 0⟩ =
      (YAJBE_INT_NEGATIVE,
       ⟨(h : Int), YAJBE_INT_NEGATIVE, ((h &&& 31 : Nat) : Int) - 23⟩,
       ⟨h :: rest, 1⟩) := by
  unfold yajbe_decode_next readU8
  norm_num [List.getD, Nat.mod_eq_of_lt hh, ht, YAJBE_INT_POSITIVE, YAJBE_ARRAY,
    YAJBE_OBJECT, YAJBE_ARRAY_EOF, YAJBE_OBJECT_EOF, YAJBE_SMALL_BYTES,
    YAJBE_SMALL_STRING, YAJBE_BYTES, YAJBE_STRING, YAJBE_INT_SMALL,
    YAJBE_INT_NEGATIVE, YAJBE_FLOAT_32, YAJBE_FLOAT_64]

theorem decode_next_small_bytes (d : YajbeDecoder) (h : Nat) (rest : List Nat)
    (hh : h < 256) (ht : tokenOf h = YAJBE_SMALL_BYTES) :
    yajbe_decode_next d ⟨h :: rest, 0⟩ =
      (YAJBE_SMALL_BYTES,
       ⟨(h : Int), YAJBE_SMALL_BYTES, ((h &&& 63 : Nat) : Int)⟩,
       ⟨h :: rest, 1⟩) := by
  unfold yajbe_decode_next readU8
  norm_num [List.getD, Nat.mod_eq_of_lt hh, ht, YAJBE_INT_POSITIVE, YAJBE_ARRAY,
    YAJBE_OBJECT, YAJBE_ARRAY_EOF, YAJBE_OBJECT_EOF, YAJBE_SMALL_BYTES,
    YAJBE_SMALL_STRING, YAJBE_BYTES, YAJBE_STRING, YAJBE_INT_SMALL,
    YAJBE_INT_NEGATIVE, YAJBE_FLOAT_32, YAJBE_FLOAT_64]

theorem decode_next_small_string (d : YajbeDecoder) (h : Nat) (rest : List Nat)
    (hh : h < 256) (ht : tokenOf h = YAJBE_SMALL_STRING) :
    yajbe_decode_next d ⟨h :: rest, 0⟩ =
      (YAJBE_SMALL_STRING,
       ⟨(h : Int), YAJBE_SMALL_STRING, ((h &&& 63 : Nat) : Int)⟩,
       ⟨h :: rest, 1⟩) := by
  unfold yajbe_decode_next readU8
  norm_num [List.getD, Nat.mod_eq_of_lt hh, ht, YAJBE_INT_POSITIVE, YAJBE_ARRAY,
    YAJBE_OBJECT, YAJBE_ARRAY_EOF, YAJBE_OBJECT_EOF, YAJBE_SMALL_BYTES,
    YAJBE_SMALL_STRING, YAJBE_BYTES, YAJBE_STRING, YAJBE_INT_SMALL,
    YAJBE_INT_NEGATIVE, YAJBE_FLOAT_32, YAJBE_FLOAT_64]

theorem decode_next_bytes_cont (d : YajbeDecoder) (h : Nat) (rest : List Nat)
    (hh : h < 256) (ht : tokenOf h = YAJBE_BYTES)
    (hw : (h &&& 63) - 59 ≤ rest.length) :
    yajbe_decode_next d ⟨h :: rest, 0⟩ =
      (YAJBE_BYTES,
       ⟨(h : Int), YAJBE_BYTES, 59 + asInt64 (leRead rest ((h &&& 63) - 59))⟩,
       ⟨h :: rest, 1 + ((h &&& 63) - 59)⟩) := by
  unfold yajbe_decode_next readU8 readUintE
  norm_num [List.getD, Nat.mod_eq_of_lt hh, ht, YAJBE_INT_POSITIVE, YAJBE_ARRAY,
    YAJBE_OBJECT, YAJBE_ARRAY_EOF, YAJBE_OBJECT_EOF, YAJBE_SMALL_BYTES,
    YAJBE_SMALL_STRING, YAJBE_BYTES, YAJBE_STRING, YAJBE_INT_SMALL,
    YAJBE_INT_NEGATIVE, YAJBE_FLOAT_32, YAJBE_FLOAT_64]
  rw [if_neg (by omega)]

theorem decode_next_string_cont (d : YajbeDecoder) (h : Nat) (rest : List Nat)
    (hh : h < 256) (ht : tokenOf h = YAJBE_STRING)
    (hw : (h &&& 63) - 59 ≤ rest.length) :
    yajbe_decode_next d ⟨h :: rest, 0⟩ =
      (YAJBE_STRING,
       ⟨(h : Int), YAJBE_STRING, 59 + asInt64 (leRead rest ((h &&& 63) - 59))⟩,
       ⟨h :: rest, 1 + ((h &&& 63) - 59)⟩) := by
  unfold yajbe_decode_next readU8 readUintE
  norm_num [List.getD, Nat.mod_eq_of_lt hh, ht, YAJBE_INT_POSITIVE, YAJBE_ARRAY,
    YAJBE_OBJECT, YAJBE_ARRAY_EOF, YAJBE_OBJECT_EOF, YAJBE_SMALL_BYTES,
    YAJBE_SMALL_STRING, YAJBE_BYTES, YAJBE_STRING, YAJBE_INT_SMALL,
    YAJBE_INT_NEGATIVE, YAJBE_FLOAT_32, YAJBE_FLOAT_64]
  rw [if_neg (by omega)]

theorem decode_next_float32 (d : YajbeDecoder) (rest : List Nat) :
    yajbe_decode_next d ⟨5 :: rest, 0⟩ =
      (YAJBE_FLOAT_32, ⟨5, YAJBE_FLOAT_32, 4⟩, ⟨5 :: rest, 1⟩) := by
  have ht : tokenOf 5 = YAJBE_FLOAT_32 := by decide
  unfold yajbe_decode_next readU8
  norm_num [List.getD, ht, YAJBE_INT_POSITIVE, YAJBE_ARRAY,
    YAJBE_OBJECT, YAJBE_ARRAY_EOF, YAJBE_OBJECT_EOF, YAJBE_SMALL_BYTES,
    YAJBE_SMALL_STRING, YAJBE_BYTES, YAJBE_STRING, YAJBE_INT_SMALL,
    YAJBE_INT_NEGATIVE, YAJBE_FLOAT_32, YAJBE_FLOAT_64]

theorem decode_next_float64 (d : YajbeDecoder) (rest : List Nat) :
    yajbe_decode_next d ⟨6 :: rest, 0⟩ =
      (YAJBE_FLOAT_64, ⟨6, YAJBE_FLOAT_64, 8⟩, ⟨6 :: rest, 1⟩) := by
  have ht : tokenOf 6 = YAJBE_FLOAT_64 := by decide
  unfold yajbe_decode_next readU8
  norm_num [List.getD, ht, YAJBE_INT_POSITIVE, YAJBE_ARRAY,
    YAJBE_OBJECT, YAJBE_ARRAY_EOF, YAJBE_OBJECT_EOF, YAJBE_SMALL_BYTES,
    YAJBE_SMALL_STRING, YAJBE_BYTES, YAJBE_STRING, YAJBE_INT_SMALL,
    YAJBE_INT_NEGATIVE, YAJBE_FLOAT_32, YAJBE_FLOAT_64]

/-! Round-trip of each primitive kind: encoding with the value
encoder and decoding with `yajbe_decode_next` plus the matching typed
read returns the value. -/

theorem roundtrip_float32 (bits : Nat) (hb : bits < 2 ^ 32) :
    decodeValue (yajbe_encode_float bits) = some (.vfloat32 bits) := by
  unfold decodeValue yajbe_encode_float
  rw [decode_next_float32]
  norm_num [YAJBE_NULL, YAJBE_TRUE, YAJBE_FALSE, YAJBE_INT_SMALL,
    YAJBE_INT_POSITIVE, YAJBE_INT_NEGATIVE, YAJBE_FLOAT_32, YAJBE_FLOAT_64,
    YAJBE_SMALL_BYTES, YAJBE_BYTES, YAJBE_SMALL_STRING, YAJBE_STRING]
  unfold yajbe_decode_float readUintE
  norm_num [leBytes_length, YAJBE_FLOAT_32]
  have : leRead (leBytes bits 4) 4 = bits % 256 ^ 4 := by
    simpa using leRead_leBytes_append bits 4 []
  rw [this]
  norm_num
  omega

theorem roundtrip_int_small_pos (i : Int) (h1 : 1 ≤ i) (h2 : i ≤ 24) :
    decodeValue (yajbe_encode_int i) = some (.vint i) := by
  have hi : yajbe_encode_int i = [(64 ||| (i.toNat - 1)) % 256] := by
    unfold yajbe_encode_int
    rw [if_pos (by omega), if_pos h2]
  have hn24 : i.toNat - 1 < 24 := by omega
  have hfact := (by decide :
      ∀ m, m < 24 → (64 ||| m) % 256 = 64 + m
        ∧ tokenOf (64 + m) = YAJBE_INT_SMALL
        ∧ ¬ ((64 + m) &&& 96 = 96)
        ∧ (64 + m) &&& 31 = m) (i.toNat - 1) hn24
  rw [hi, hfact.1]
  unfold decodeValue
  rw [decode_next_int_small _ _ _ (by omega) hfact.2.1]
  norm_num [YAJBE_NULL, YAJBE_TRUE, YAJBE_FALSE, YAJBE_INT_SMALL,
    YAJBE_INT_POSITIVE, YAJBE_INT_NEGATIVE]
  unfold yajbe_decode_int
  have h31 : ((64 + ((i.toNat - 1 : Nat) : Int)).toNat) = 64 + (i.toNat - 1) := by
    omega
  norm_num [YAJBE_INT_SMALL, h31, hfact.2.2.1, hfact.2.2.2]
  omega

theorem roundtrip_int_small_neg (i : Int) (h1 : -23 ≤ i) (h2 : i ≤ 0) :
    decodeValue (yajbe_encode_int i) = some (.vint i) := by
  set u := (-i).toNat with hu
  have hi : yajbe_encode_int i = [(96 ||| u) % 256] := by
    unfold yajbe_encode_int
    rw [if_neg (by omega), if_pos (by omega)]
  have hfact := (by decide :
      ∀ m, m < 24 → (96 ||| m) % 256 = 96 + m
        ∧ tokenOf (96 + m) = YAJBE_INT_SMALL
        ∧ (96 + m) &&& 96 = 96
        ∧ (96 + m) &&& 31 = m) u (by omega)
  rw [hi, hfact.1]
  unfold decodeValue
  rw [decode_next_int_small _ _ _ (by omega) hfact.2.1]
  norm_num [YAJBE_NULL, YAJBE_TRUE, YAJBE_FALSE, YAJBE_INT_SMALL,
    YAJBE_INT_POSITIVE, YAJBE_INT_NEGATIVE]
  unfold yajbe_decode_int
  have h31 : ((96 + ((u : Nat) : Int)).toNat) = 96 + u := by omega
  norm_num [YAJBE_INT_SMALL, h31, hfact.2.2.1, hfact.2.2.2]
  omega

theorem roundtrip_int_pos_big (i : Int) (h1 : 25 ≤ i) (h2 : i < 2 ^ 63) :
    decodeValue (yajbe_encode_int i) = some (.vint i) := by
  set x := i.toNat - 25 with hx
  set b := intBytesWidth x with hbdef
  have hxw : x < 256 ^ b := lt_pow_intBytesWidth (by omega)
  have hb1 : 1 ≤ b := intBytesWidth_pos _
  have hb8 : b ≤ 8 := intBytesWidth_le_eight _
  have hi : yajbe_encode_int i = ((64 ||| (23 + b)) % 256) :: leBytes x b := by
    unfold yajbe_encode_int
    rw [if_pos (by omega), if_neg (by omega)]
  have hfact := (by decide :
      ∀ m, m < 9 → 1 ≤ m → (64 ||| (23 + m)) % 256 = 87 + m
        ∧ tokenOf (87 + m) = YAJBE_INT_POSITIVE
        ∧ (87 + m) &&& 31 = 23 + m) b (by omega) hb1
  rw [hi, hfact.1]
  unfold decodeValue
  rw [decode_next_int_pos _ _ _ (by omega) hfact.2.1]
  norm_num [YAJBE_NULL, YAJBE_TRUE, YAJBE_FALSE, YAJBE_INT_SMALL,
    YAJBE_INT_POSITIVE, YAJBE_INT_NEGATIVE, hfact.2.2]
  unfold yajbe_decode_int readUintE
  have hlen : ((87 + b) :: leBytes x b).length = 1 + b := by
    simp [leBytes_length]; omega
  have htn : ((23 + (b : Int)) - 23).toNat = b := by omega
  norm_num [YAJBE_INT_SMALL, YAJBE_INT_POSITIVE, htn, hlen, leBytes_length]
  have hrd : leRead (leBytes x b) b = x := by
    have := leRead_leBytes_exact hxw ([] : List Nat)
    simpa using this
  rw [hrd]
  unfold asInt64
  rw [if_pos (by omega)]
  omega

theorem roundtrip_int_neg_big (i : Int) (h1 : -(2 ^ 63) < i) (h2 : i ≤ -24) :
    decodeValue (yajbe_encode_int i) = some (.vint i) := by
  set x := (-i).toNat - 24 with hx
  set b := intBytesWidth x with hbdef
  have hxw : x < 256 ^ b := lt_pow_intBytesWidth (by omega)
  have hb1 : 1 ≤ b := intBytesWidth_pos _
  have hb8 : b ≤ 8 := intBytesWidth_le_eight _
  have hi : yajbe_encode_int i = ((96 ||| (23 + b)) % 256) :: leBytes x b := by
    unfold yajbe_encode_int
    rw [if_neg (by omega), if_neg (by omega)]
  have hfact := (by decide :
      ∀ m, m < 9 → 1 ≤ m → (96 ||| (23 + m)) % 256 = 119 + m
        ∧ tokenOf (119 + m) = YAJBE_INT_NEGATIVE
        ∧ (119 + m) &&& 31 = 23 + m) b (by omega) hb1
  rw [hi, hfact.1]
  unfold decodeValue
  rw [decode_next_int_neg _ _ _ (by omega) hfact.2.1]
  norm_num [YAJBE_NULL, YAJBE_TRUE, YAJBE_FALSE, YAJBE_INT_SMALL,
    YAJBE_INT_POSITIVE, YAJBE_INT_NEGATIVE, hfact.2.2]
  unfold yajbe_decode_int readUintE
  have hlen : ((119 + b) :: leBytes x b).length = 1 + b := by
    simp [leBytes_length]; omega
  have htn : ((23 + (b : Int)) - 23).toNat = b := by omega
  norm_num [YAJBE_INT_SMALL, YAJBE_INT_POSITIVE, YAJBE_INT_NEGATIVE, htn,
    hlen, leBytes_length]
  have hrd : leRead (leBytes x b) b = x := by
    have := leRead_leBytes_exact hxw ([] : List Nat)
    simpa using this
  rw [hrd]
  unfold asInt64
  rw [if_pos (by omega)]
  omega

theorem roundtrip_float64 (bits : Nat) (hb : bits < 2 ^ 64) :
    decodeValue (yajbe_encode_double bits) = some (.vfloat64 bits) := by
  unfold decodeValue yajbe_encode_double
  rw [decode_next_float64]
  norm_num [YAJBE_NULL, YAJBE_TRUE, YAJBE_FALSE, YAJBE_INT_SMALL,
    YAJBE_INT_POSITIVE, YAJBE_INT_NEGATIVE, YAJBE_FLOAT_32, YAJBE_FLOAT_64,
    YAJBE_SMALL_BYTES, YAJBE_BYTES, YAJBE_SMALL_STRING, YAJBE_STRING]
  unfold yajbe_decode_double readUintE
  norm_num [leBytes_length, YAJBE_FLOAT_64]
  have : leRead (leBytes bits 8) 8 = bits % 256 ^ 8 := by
    simpa using leRead_leBytes_append bits 8 []
  rw [this]
  norm_num
  omega

theorem roundtrip_bytes_small (bs : List Nat) (hlen : bs.length ≤ 59) :
    decodeValue (yajbe_encode_bytes bs) = some (.vbytes bs) := by
  set n := bs.length with hn
  have hi : yajbe_encode_bytes bs = ((128 ||| n) % 256) :: bs := by
    unfold yajbe_encode_bytes yajbe_encode_length
    rw [if_pos (by omega)]
    rfl
  have hfact := (by decide :
      ∀ m, m < 60 → (128 ||| m) % 256 = 128 + m
        ∧ tokenOf (128 + m) = YAJBE_SMALL_BYTES
        ∧ (128 + m) &&& 63 = m) n (by omega)
  rw [hi, hfact.1]
  unfold decodeValue
  rw [decode_next_small_bytes _ _ _ (by omega) hfact.2.1]
  norm_num [YAJBE_NULL, YAJBE_TRUE, YAJBE_FALSE, YAJBE_INT_SMALL,
    YAJBE_INT_POSITIVE, YAJBE_INT_NEGATIVE, YAJBE_FLOAT_32, YAJBE_FLOAT_64,
    YAJBE_SMALL_BYTES, YAJBE_BYTES, hfact.2.2]
  unfold yajbe_decode_bytes readBytesE
  norm_num [YAJBE_SMALL_BYTES, YAJBE_BYTES]
  rw [if_neg (by omega)]
  simp [hn, List.take_length]

theorem roundtrip_bytes_big (bs : List Nat) (h60 : 59 < bs.length)
    (hmax : bs.length < 59 + 2 ^ 32) :
    decodeValue (yajbe_encode_bytes bs) = some (.vbytes bs) := by
  set n := bs.length with hn
  set delta := n - 59 with hdelta
  set b := intBytesWidth delta with hbdef
  have hdw : delta < 256 ^ b := lt_pow_intBytesWidth (by omega)
  have hb1 : 1 ≤ b := intBytesWidth_pos _
  have hb4 : b ≤ 4 := intBytesWidth_le_four (by omega)
  have hi : yajbe_encode_bytes bs
      = ((128 ||| (59 + b)) % 256) :: (leBytes delta b ++ bs) := by
    unfold yajbe_encode_bytes yajbe_encode_length
    rw [if_neg (by omega)]
    simp
  have hfact := (by decide :
      ∀ m, m < 5 → 1 ≤ m → (128 ||| (59 + m)) % 256 = 187 + m
        ∧ tokenOf (187 + m) = YAJBE_BYTES
        ∧ (187 + m) &&& 63 = 59 + m) b (by omega) hb1
  have hrd : leRead (leBytes delta b ++ bs) b = delta := leRead_leBytes_exact hdw bs
  have hdrop : (leBytes delta b ++ bs).drop b = bs := by
    have := List.drop_left (leBytes delta b) bs
    rwa [leBytes_length] at this
  rw [hi, hfact.1]
  unfold decodeValue
  rw [decode_next_bytes_cont _ _ _ (by omega) hfact.2.1
      (by simp [hfact.2.2, leBytes_length]; try omega)]
  norm_num [YAJBE_NULL, YAJBE_TRUE, YAJBE_FALSE, YAJBE_INT_SMALL,
    YAJBE_INT_POSITIVE, YAJBE_INT_NEGATIVE, YAJBE_FLOAT_32, YAJBE_FLOAT_64,
    YAJBE_SMALL_BYTES, YAJBE_BYTES, hfact.2.2, hrd]
  unfold asInt64
  rw [if_pos (by omega)]
  unfold yajbe_decode_bytes readBytesE
  norm_num [YAJBE_SMALL_BYTES, YAJBE_BYTES, leBytes_length]
  have htn : ((59 : Int) + (delta : Int)).toNat = n := by omega
  rw [htn]
  have hdc : ((187 + b) :: (leBytes delta b ++ bs)).drop (1 + b) = bs := by
    rw [Nat.add_comm 1 b, List.drop_succ_cons, hdrop]
  rw [hdc]
  simp [hn, List.take_length]
  rw [if_neg (by omega)]

theorem roundtrip_string_small (bs : List Nat) (hlen : bs.length ≤ 59) :
    decodeValue (yajbe_encode_string bs) = some (.vstring bs) := by
  set n := bs.length with hn
  have hi : yajbe_encode_string bs = ((192 ||| n) % 256) :: bs := by
    unfold yajbe_encode_string yajbe_encode_length
    rw [if_pos (by omega)]
    rfl
  have hfact := (by decide :
      ∀ m, m < 60 → (192 ||| m) % 256 = 192 + m
        ∧ tokenOf (192 + m) = YAJBE_SMALL_STRING
        ∧ (192 + m) &&& 63 = m) n (by omega)
  rw [hi, hfact.1]
  unfold decodeValue
  rw [decode_next_small_string _ _ _ (by omega) hfact.2.1]
  norm_num [YAJBE_NULL, YAJBE_TRUE, YAJBE_FALSE, YAJBE_INT_SMALL,
    YAJBE_INT_POSITIVE, YAJBE_INT_NEGATIVE, YAJBE_FLOAT_32, YAJBE_FLOAT_64,
    YAJBE_SMALL_BYTES, YAJBE_BYTES, YAJBE_SMALL_STRING, YAJBE_STRING, hfact.2.2]
  unfold yajbe_decode_string readBytesE
  norm_num [YAJBE_SMALL_STRING, YAJBE_STRING]
  rw [if_neg (by omega)]
  simp [hn, List.take_length]

theorem roundtrip_string_big (bs : List Nat) (h60 : 59 < bs.length)
    (hmax : bs.length < 59 + 2 ^ 32) :
    decodeValue (yajbe_encode_string bs) = some (.vstring bs) := by
  set n := bs.length with hn
  set delta := n - 59 with hdelta
  set b := intBytesWidth delta with hbdef
  have hdw : delta < 256 ^ b := lt_pow_intBytesWidth (by omega)
  have hb1 : 1 ≤ b := intBytesWidth_pos _
  have hb4 : b ≤ 4 := intBytesWidth_le_four (by omega)
  have hi : yajbe_encode_string bs
      = ((192 ||| (59 + b)) % 256) :: (leBytes delta b ++ bs) := by
    unfold yajbe_encode_string yajbe_encode_length
    rw [if_neg (by omega)]
    simp
  have hfact := (by decide :
      ∀ m, m < 5 → 1 ≤ m → (192 ||| (59 + m)) % 256 = 251 + m
        ∧ tokenOf (251 + m) = YAJBE_STRING
        ∧ (251 + m) &&& 63 = 59 + m) b (by omega) hb1
  have hrd : leRead (leBytes delta b ++ bs) b = delta := leRead_leBytes_exact hdw bs
  have hdrop : (leBytes delta b ++ bs).drop b = bs := by
    have := List.drop_left (leBytes delta b) bs
    rwa [leBytes_length] at this
  rw [hi, hfact.1]
  unfold decodeValue
  rw [decode_next_string_cont _ _ _ (by omega) hfact.2.1
      (by simp [hfact.2.2, leBytes_length]; try omega)]
  norm_num [YAJBE_NULL, YAJBE_TRUE, YAJBE_FALSE, YAJBE_INT_SMALL,
    YAJBE_INT_POSITIVE, YAJBE_INT_NEGATIVE, YAJBE_FLOAT_32, YAJBE_FLOAT_64,
    YAJBE_SMALL_BYTES, YAJBE_BYTES, YAJBE_SMALL_STRING, YAJBE_STRING,
    hfact.2.2, hrd]
  unfold asInt64
  rw [if_pos (by omega)]
  unfold yajbe_decode_string readBytesE
  norm_num [YAJBE_SMALL_STRING, YAJBE_STRING, leBytes_length]
  have htn : ((59 : Int) + (delta : Int)).toNat = n := by omega
  rw [htn]
  have hdc : ((251 + b) :: (leBytes delta b ++ bs)).drop (1 + b) = bs := by
    rw [Nat.add_comm 1 b, List.drop_succ_cons, hdrop]
  rw [hdc]
  simp [hn, List.take_length]
  rw [if_neg (by omega)]

/-! Lemmas for the C9 development: probe-distance arithmetic, slot-array
updates, the terminating runs of the `hget`/`hadd` probe loops, and
preservation of `EncInv` across `yajbe_field_encode` calls. -/

theorem maskS {S K x : Nat} (hS : S = 2 ^ K) : x &&& (S - 1) = x % S := by
  subst hS
  exact Nat.and_pow_two_sub_one_eq_mod x K

theorem probeDist_lt (S h p : Nat) (hS : 0 < S) : probeDist S h p < S :=
  Nat.mod_lt _ hS

theorem probeDist_spec (S h p : Nat) (hh : h < S) (hp : p < S) :
    (h + probeDist S h p) % S = p := by
  unfold probeDist
  rcases le_or_lt h p with hc | hc
  · have h1 : p + S - h = (p - h) + S := by omega
    rw [h1, Nat.add_mod_right, Nat.mod_eq_of_lt (by omega : p - h < S)]
    have h2 : h + (p - h) = p := by omega
    rw [h2, Nat.mod_eq_of_lt hp]
  · have h1 : p + S - h < S := by omega
    rw [Nat.mod_eq_of_lt h1]
    have h2 : h + (p + S - h) = p + S := by omega
    rw [h2, Nat.add_mod_right, Nat.mod_eq_of_lt hp]

theorem probeDist_add (S h t : Nat) (hh : h < S) (ht : t < S) :
    probeDist S h ((h + t) % S) = t := by
  unfold probeDist
  rcases lt_or_le (h + t) S with hc | hc
  · rw [Nat.mod_eq_of_lt hc]
    have h1 : h + t + S - h = t + S := by omega
    rw [h1, Nat.add_mod_right, Nat.mod_eq_of_lt ht]
  · have h2 : (h + t) % S = h + t - S := by
      rw [Nat.mod_eq_sub_mod hc, Nat.mod_eq_of_lt (by omega)]
    rw [h2]
    have h3 : h + t - S + S - h = t := by omega
    rw [h3, Nat.mod_eq_of_lt ht]

theorem getD_set_self {α} (l : List α) (i : Nat) (h : i < l.length)
    (a d : α) : (l.set i a).getD i d = a := by
  rw [List.getD_eq_getElem?_getD, List.getElem?_set_self (by omega)]
  rfl

theorem getD_set_ne {α} (l : List α) (i j : Nat) (h : i ≠ j) (a d : α) :
    (l.set i a).getD j d = l.getD j d := by
  rw [List.getD_eq_getElem?_getD, List.getD_eq_getElem?_getD,
    List.getElem?_set_ne h]

theorem getD_replicate_none {α} (S p : Nat) :
    (List.replicate S (none : Option α)).getD p none = none := by
  rw [List.getD_eq_getElem?_getD, List.getElem?_replicate]
  split <;> rfl

theorem getD_out_of_range {α} (l : List (Option α)) (p : Nat)
    (h : l.length ≤ p) : l.getD p none = none := by
  rw [List.getD_eq_getElem?_getD, List.getElem?_eq_none_iff.mpr h]
  rfl

theorem hgetLoop_nomatch (entries : List (Option FieldEncEntry))
    (mask khash : Nat) (key : List Nat)
    (hall : ∀ i e, entries.getD i none = some e →
      ¬ fieldEntryEquals e khash key) :
    ∀ fuel hindex, hgetLoop entries mask khash key hindex fuel = -1 := by
  intro fuel
  induction fuel with
  | zero => intro hindex; rfl
  | succ fuel ih =>
    intro hindex
    unfold hgetLoop
    cases hgd : entries.getD hindex none with
    | none => rfl
    | some e =>
      dsimp only
      rw [if_neg (hall hindex e hgd)]
      exact ih _

theorem hgetLoop_reach (S K : Nat) (hS : S = 2 ^ K)
    (entries : List (Option FieldEncEntry)) (khash : Nat) (key : List Nat)
    (h0 : Nat) (hh0 : h0 < S) (p : Nat) (hp : p < S)
    (e : FieldEncEntry) (hpe : entries.getD p none = some e)
    (heq : fieldEntryEquals e khash key)
    (hpath : ∀ t, t < probeDist S h0 p →
      ∃ e', entries.getD ((h0 + t) % S) none = some e'
        ∧ ¬ fieldEntryEquals e' khash key) :
    ∀ n t, t + n = probeDist S h0 p → ∀ fuel, n < fuel →
      hgetLoop entries (S - 1) khash key ((h0 + t) % S) fuel
        = (e.index : Int) := by
  intro n
  induction n with
  | zero =>
    intro t ht fuel hfuel
    cases fuel with
    | zero => omega
    | succ fuel =>
      have hslot : (h0 + t) % S = p := by
        have h1 := probeDist_spec S h0 p hh0 hp
        have h2 : t = probeDist S h0 p := by omega
        rw [h2]; exact h1
      unfold hgetLoop
      rw [hslot, hpe]
      dsimp only
      rw [if_pos heq]
  | succ n ih =>
    intro t ht fuel hfuel
    cases fuel with
    | zero => omega
    | succ fuel =>
      have htlt : t < probeDist S h0 p := by omega
      obtain ⟨e', he', hne⟩ := hpath t htlt
      unfold hgetLoop
      rw [he']
      dsimp only
      rw [if_neg hne]
      have hmask : ((h0 + t) % S + 1) &&& (S - 1) = (h0 + (t + 1)) % S := by
        rw [maskS hS, Nat.mod_add_mod, Nat.add_assoc]
      rw [hmask]
      exact ih (t + 1) (by omega) fuel (by omega)

theorem haddProbe_reach (S K : Nat) (hS : S = 2 ^ K)
    (entries : List (Option FieldEncEntry)) (khash : Nat) (key : List Nat)
    (h0 : Nat) (d : Nat)
    (hempty : entries.getD ((h0 + d) % S) none = none)
    (hpath : ∀ t, t < d →
      ∃ e', entries.getD ((h0 + t) % S) none = some e'
        ∧ ¬ fieldEntryEquals e' khash key) :
    ∀ n t, t + n = d → ∀ fuel, n < fuel →
      haddProbe entries (S - 1) khash key ((h0 + t) % S) fuel
        = some (.inr ((h0 + d) % S)) := by
  intro n
  induction n with
  | zero =>
    intro t ht fuel hfuel
    cases fuel with
    | zero => omega
    | succ fuel =>
      have h2 : t = d := by omega
      subst h2
      unfold haddProbe
      rw [hempty]

  | succ n ih =>
    intro t ht fuel hfuel
    cases fuel with
    | zero => omega
    | succ fuel =>
      obtain ⟨e', he', hne⟩ := hpath t (by omega)
      unfold haddProbe
      rw [he']
      dsimp only
      rw [if_neg hne]
      have hmask : ((h0 + t) % S + 1) &&& (S - 1) = (h0 + (t + 1)) % S := by
        rw [maskS hS, Nat.mod_add_mod, Nat.add_assoc]
      rw [hmask]
      exact ih (t + 1) (by omega) fuel (by omega)

theorem hget_found (S K : Nat) (hS : S = 2 ^ K) (hS0 : 0 < S)
    (fe : FieldEncoder) (seen : List (List Nat)) (hInv : EncInv S fe seen)
    (key : List Nat) (j : Nat) (hj : seen[j]? = some key) :
    yajbe_field_encoder_hget fe (hash_fnv_1a key) key = (j : Int) := by
  obtain ⟨hlen, hcount, hnodup, hslot, hkeys, hinj⟩ := hInv
  obtain ⟨p, hp, hpe⟩ := hkeys j key hj
  have hh0 : hash_fnv_1a key % S < S := Nat.mod_lt _ hS0
  have hpathAll := (hslot p _ hp hpe).2.2
  have hpath : ∀ t, t < probeDist S (hash_fnv_1a key % S) p →
      ∃ e', fe.entries.getD ((hash_fnv_1a key % S + t) % S) none = some e'
        ∧ ¬ fieldEntryEquals e' (hash_fnv_1a key) key := by
    intro t htlt
    have hocc := hpathAll t htlt
    cases hgd : fe.entries.getD ((hash_fnv_1a key % S + t) % S) none with
    | none => exact absurd hgd hocc
    | some e' =>
      refine ⟨e', rfl, ?_⟩
      rintro ⟨hh, hn⟩
      have hq := hinj _ _ e' ⟨key, hash_fnv_1a key, j⟩
        (Nat.mod_lt _ hS0) hp hgd hpe (by simpa using hn)
      have ht2 := probeDist_add S (hash_fnv_1a key % S) t hh0
        (lt_trans htlt (probeDist_lt S _ p hS0))
      rw [hq] at ht2
      omega
  have hreach := hgetLoop_reach S K hS fe.entries (hash_fnv_1a key) key
    (hash_fnv_1a key % S) hh0 p hp _ hpe ⟨rfl, rfl⟩ hpath
    (probeDist S (hash_fnv_1a key % S) p) 0 (by omega) S
    (probeDist_lt S _ p hS0)
  unfold yajbe_field_encoder_hget
  rw [hlen, maskS hS]
  have hz : (hash_fnv_1a key % S + 0) % S = hash_fnv_1a key % S := by
    rw [Nat.add_zero, Nat.mod_eq_of_lt hh0]
  rw [hz] at hreach
  exact hreach

theorem hget_notin (S : Nat) (fe : FieldEncoder) (seen : List (List Nat))
    (hInv : EncInv S fe seen) (key : List Nat) (hnot : key ∉ seen) :
    yajbe_field_encoder_hget fe (hash_fnv_1a key) key = -1 := by
  obtain ⟨hlen, hcount, hnodup, hslot, hkeys, hinj⟩ := hInv
  apply hgetLoop_nomatch
  intro i e hi
  rintro ⟨hh, hn⟩
  rcases lt_or_le i S with hiS | hiS
  · have hmem := (hslot i e hiS hi).2.1
    apply hnot
    rw [← hn]
    obtain ⟨hlt2, hget⟩ := List.getElem?_eq_some_iff.mp hmem
    rw [← hget]
    exact List.getElem_mem hlt2
  · rw [getD_out_of_range fe.entries i (by omega)] at hi
    exact absurd hi (by simp)

theorem exists_empty_slot (S : Nat) (fe : FieldEncoder)
    (seen : List (List Nat)) (hInv : EncInv S fe seen)
    (hlt : seen.length < S) :
    ∃ p, p < S ∧ fe.entries.getD p none = none := by
  by_contra hc
  push_neg at hc
  obtain ⟨hlen, hcount, hnodup, hslot, hkeys, hinj⟩ := hInv
  have hsome : ∀ p : Fin S, ∃ e, fe.entries.getD p none = some e := by
    intro p
    cases hgd : fe.entries.getD p none with
    | none => exact absurd hgd (hc p p.2)
    | some e => exact ⟨e, rfl⟩
  choose f hf using hsome
  have hidx : ∀ p : Fin S, (f p).index < seen.length := by
    intro p
    have := (hslot p (f p) p.2 (hf p)).2.1
    exact (List.getElem?_eq_some_iff.mp this).1
  have hginj : Function.Injective (fun p : Fin S =>
      (⟨(f p).index, hidx p⟩ : Fin seen.length)) := by
    intro p q hpq
    have hpq' : (f p).index = (f q).index := congrArg Fin.val hpq
    have h1 := (hslot p (f p) p.2 (hf p)).2.1
    have h2 := (hslot q (f q) q.2 (hf q)).2.1
    rw [hpq'] at h1
    rw [h2] at h1
    have hname : (f p).name = (f q).name := by
      injection h1 with h1; rw [h1]
    exact Fin.ext (hinj p q (f p) (f q) p.2 q.2 (hf p) (hf q) hname)
  have hcard := Fintype.card_le_of_injective _ hginj
  simp [Fintype.card_fin] at hcard
  omega

theorem hadd_new (S K : Nat) (hS : S = 2 ^ K) (hS0 : 0 < S)
    (fe : FieldEncoder) (seen : List (List Nat)) (hInv : EncInv S fe seen)
    (key : List Nat) (hnot : key ∉ seen) (hlt : seen.length < S) :
    ∃ slot, slot < S
      ∧ yajbe_field_encoder_hadd fe (hash_fnv_1a key) key
        = ((seen.length : Int),
           { fe with
              entries := fe.entries.set slot
                (some ⟨key, hash_fnv_1a key, seen.length⟩),
              entriesCount := seen.length + 1 })
      ∧ EncInv S
          { fe with
             entries := fe.entries.set slot
               (some ⟨key, hash_fnv_1a key, seen.length⟩),
             entriesCount := seen.length + 1 }
          (seen ++ [key]) := by
  obtain ⟨hlen, hcount, hnodup, hslot, hkeys, hinj⟩ := hInv
  have hh0 : hash_fnv_1a key % S < S := Nat.mod_lt _ hS0
  obtain ⟨pe, hpeS, hpeE⟩ :=
    exists_empty_slot S fe seen ⟨hlen, hcount, hnodup, hslot, hkeys, hinj⟩ hlt
  have hex : ∃ t, fe.entries.getD ((hash_fnv_1a key % S + t) % S) none = none := by
    refine ⟨probeDist S (hash_fnv_1a key % S) pe, ?_⟩
    rw [probeDist_spec S _ pe hh0 hpeS]
    exact hpeE
  set d := Nat.find hex with hdd
  have hd := Nat.find_spec hex
  have hmin : ∀ t, t < d → fe.entries.getD
      ((hash_fnv_1a key % S + t) % S) none ≠ none :=
    fun t ht => Nat.find_min hex ht
  have hdS : d < S := by
    have := Nat.find_min' hex (m := probeDist S (hash_fnv_1a key % S) pe) (by
      rw [probeDist_spec S _ pe hh0 hpeS]; exact hpeE)
    exact lt_of_le_of_lt this (probeDist_lt S _ pe hS0)
  have hpath : ∀ t, t < d →
      ∃ e', fe.entries.getD ((hash_fnv_1a key % S + t) % S) none = some e'
        ∧ ¬ fieldEntryEquals e' (hash_fnv_1a key) key := by
    intro t ht
    cases hgd : fe.entries.getD ((hash_fnv_1a key % S + t) % S) none with
    | none => exact absurd hgd (hmin t ht)
    | some e' =>
      refine ⟨e', rfl, ?_⟩
      rintro ⟨hh, hn⟩
      have hmem := (hslot _ e' (Nat.mod_lt _ hS0) hgd).2.1
      apply hnot
      rw [← hn]
      obtain ⟨hlt2, hget⟩ := List.getElem?_eq_some_iff.mp hmem
      rw [← hget]
      exact List.getElem_mem hlt2
  have hprobe := haddProbe_reach S K hS fe.entries (hash_fnv_1a key) key
    (hash_fnv_1a key % S) d hd hpath d 0 (by omega) S hdS
  have hz : (hash_fnv_1a key % S + 0) % S = hash_fnv_1a key % S := by
    rw [Nat.add_zero, Nat.mod_eq_of_lt hh0]
  rw [hz] at hprobe
  set slot := (hash_fnv_1a key % S + d) % S with hslotdef
  have hslotS : slot < S := Nat.mod_lt _ hS0
  have hslotlen : slot < fe.entries.length := by omega
  refine ⟨slot, hslotS, ?_, ?_⟩
  · unfold yajbe_field_encoder_hadd
    rw [if_neg (by omega), hlen, maskS hS, hprobe, hcount]
  · -- the invariant for the extended table
    set newE : FieldEncEntry := ⟨key, hash_fnv_1a key, seen.length⟩ with hnewE
    have hgetSlot : (fe.entries.set slot (some newE)).getD slot none
        = some newE := getD_set_self _ _ hslotlen _ _
    have hgetOther : ∀ q, q ≠ slot →
        (fe.entries.set slot (some newE)).getD q none
          = fe.entries.getD q none := fun q hq => getD_set_ne _ _ _ (fun h => hq h.symm) _ _
    refine ⟨by simpa using hlen, by simp, ?_, ?_, ?_, ?_⟩
    · -- nodup
      refine List.Nodup.append hnodup (List.nodup_singleton key) ?_
      intro a ha hb
      rw [List.mem_singleton] at hb
      subst hb
      exact hnot ha
    · -- per-slot conditions
      intro p e hpS hpe2
      by_cases hps : p = slot
      · subst hps
        rw [hgetSlot] at hpe2
        injection hpe2 with hpe2
        subst hpe2
        refine ⟨rfl, ?_, ?_⟩
        · show (seen ++ [key])[seen.length]? = some key
          exact List.getElem?_concat_length seen key
        · intro t ht
          have hpd : probeDist S (newE.hash % S) slot = d := by
            show probeDist S (hash_fnv_1a key % S) slot = d
            rw [hslotdef]
            exact probeDist_add S _ d hh0 hdS
          rw [hpd] at ht
          by_cases hq : (newE.hash % S + t) % S = slot
          · rw [hq, hgetSlot]; simp
          · rw [hgetOther _ hq]
            exact hmin t ht
      · rw [hgetOther _ hps] at hpe2
        obtain ⟨hhash, hmem, hpath2⟩ := hslot p e hpS hpe2
        refine ⟨hhash, ?_, ?_⟩
        · have hidx : e.index < seen.length :=
            (List.getElem?_eq_some_iff.mp hmem).1
          rw [List.getElem?_append_left hidx]
          exact hmem
        · intro t ht
          by_cases hq : (e.hash % S + t) % S = slot
          · rw [hq, hgetSlot]; simp
          · rw [hgetOther _ hq]
            exact hpath2 t ht
    · -- every seen' key is stored
      intro j name hj
      rcases lt_trichotomy j seen.length with hlt2 | heq2 | hgt2
      · rw [List.getElem?_append_left hlt2] at hj
        obtain ⟨p, hpS, hpe2⟩ := hkeys j name hj
        have hps : p ≠ slot := by
          intro h
          rw [h] at hpe2
          rw [show fe.entries.getD slot none = none from hd] at hpe2
          exact absurd hpe2 (by simp)
        exact ⟨p, hpS, by rw [hgetOther _ hps]; exact hpe2⟩
      · subst heq2
        rw [List.getElem?_concat_length] at hj
        injection hj with hj
        subst hj
        exact ⟨slot, hslotS, by rw [hgetSlot]⟩
      · exfalso
        have : (seen ++ [key]).length ≤ j := by
          simp only [List.length_append, List.length_cons, List.length_nil]
          omega
        rw [List.getElem?_eq_none_iff.mpr this] at hj
        exact absurd hj (by simp)
    · -- injectivity of names over slots
      intro p1 p2 e1 e2 hp1 hp2 hpe1 hpe2 hname
      by_cases h1 : p1 = slot <;> by_cases h2 : p2 = slot
      · rw [h1, h2]
      · exfalso
        subst h1
        rw [hgetSlot] at hpe1
        injection hpe1 with hpe1
        subst hpe1
        rw [hgetOther _ h2] at hpe2
        have hmem := (hslot p2 e2 hp2 hpe2).2.1
        have h3 : e2.name = key := by rw [← hname]
        apply hnot
        rw [← h3]
        obtain ⟨hlt2, hget⟩ := List.getElem?_eq_some_iff.mp hmem
        rw [← hget]
        exact List.getElem_mem hlt2
      · exfalso
        subst h2
        rw [hgetSlot] at hpe2
        injection hpe2 with hpe2
        subst hpe2
        rw [hgetOther _ h1] at hpe1
        have hmem := (hslot p1 e1 hp1 hpe1).2.1
        have h3 : e1.name = key := by rw [hname]
        apply hnot
        rw [← h3]
        obtain ⟨hlt2, hget⟩ := List.getElem?_eq_some_iff.mp hmem
        rw [← hget]
        exact List.getElem_mem hlt2
      · rw [hgetOther _ h1] at hpe1
        rw [hgetOther _ h2] at hpe2
        exact hinj p1 p2 e1 e2 hp1 hp2 hpe1 hpe2 hname

theorem encInv_lastKey (S : Nat) (fe : FieldEncoder) (seen : List (List Nat))
    (k : Option (List Nat)) (hInv : EncInv S fe seen) :
    EncInv S { fe with lastKey := k } seen := hInv

theorem encode_step_mem (S K : Nat) (hS : S = 2 ^ K) (hS0 : 0 < S)
    (fe : FieldEncoder) (seen : List (List Nat)) (hInv : EncInv S fe seen)
    (key : List Nat) (j : Nat) (hj : seen[j]? = some key) :
    yajbe_field_encode fe key
      = ((field_write_length 0xa0 j).1, (field_write_length 0xa0 j).2,
         { fe with lastKey := some key })
    ∧ EncInv S { fe with lastKey := some key } seen := by
  have hget := hget_found S K hS hS0 fe seen hInv key j hj
  refine ⟨?_, encInv_lastKey S fe seen _ hInv⟩
  unfold yajbe_field_encode yajbe_field_hencode
  rw [hget]
  rw [if_pos (by omega)]
  simp

theorem encode_step_new (S K : Nat) (hS : S = 2 ^ K) (hS0 : 0 < S)
    (fe : FieldEncoder) (seen : List (List Nat)) (hInv : EncInv S fe seen)
    (key : List Nat) (hnot : key ∉ seen) (hlt : seen.length < S) :
    (yajbe_field_encode fe key).1 = 0
    ∧ (yajbe_field_encode fe key).2.2.entriesCount = seen.length + 1
    ∧ EncInv S (yajbe_field_encode fe key).2.2 (seen ++ [key]) := by
  have hget := hget_notin S fe seen hInv key hnot
  obtain ⟨slot, hslotS, hadd, hInv2⟩ :=
    hadd_new S K hS hS0 fe seen hInv key hnot hlt
  unfold yajbe_field_encode yajbe_field_hencode
  rw [hget]
  rw [if_neg (by omega)]
  rw [hadd]
  exact ⟨rfl, rfl, encInv_lastKey S _ _ _ hInv2⟩

theorem encInv_init (S : Nat) :
    EncInv S (yajbe_field_encoder_init_fixed S) [] := by
  refine ⟨by simp [yajbe_field_encoder_init_fixed], rfl, List.nodup_nil,
    ?_, ?_, ?_⟩
  · intro p e hp hpe
    rw [show (yajbe_field_encoder_init_fixed S).entries
        = List.replicate S none from rfl, getD_replicate_none] at hpe
    exact absurd hpe (by simp)
  · intro j name hj
    rw [show ([] : List (List Nat))[j]? = none from by simp] at hj
    exact absurd hj (by simp)
  · intro p1 p2 e1 e2 hp1 hp2 hpe1 hpe2 _
    rw [show (yajbe_field_encoder_init_fixed S).entries
        = List.replicate S none from rfl, getD_replicate_none] at hpe1
    exact absurd hpe1 (by simp)

theorem runFieldEncode_snoc (fe : FieldEncoder) (ks : List (List Nat))
    (k : List Nat) :
    (runFieldEncode fe (ks ++ [k])).1
      = (yajbe_field_encode (runFieldEncode fe ks).1 k).2.2 := by
  induction ks generalizing fe with
  | nil => rfl
  | cons x xs ih =>
    show (runFieldEncode (yajbe_field_encode fe x).2.2 (xs ++ [k])).1 = _
    rw [ih]
    rfl

theorem firstSeen_snoc (ks : List (List Nat)) (k : List Nat) :
    firstSeen (ks ++ [k])
      = if k ∈ firstSeen ks then firstSeen ks else firstSeen ks ++ [k] := by
  unfold firstSeen
  rw [List.foldl_append]
  rfl

theorem mem_foldl_firstSeen (a : List Nat) (ks : List (List Nat)) :
    ∀ acc, (a ∈ ks.foldl
        (fun acc k => if k ∈ acc then acc else acc ++ [k]) acc
      ↔ a ∈ acc ∨ a ∈ ks) := by
  induction ks with
  | nil => intro acc; simp
  | cons x xs ih =>
    intro acc
    show a ∈ xs.foldl _ (if x ∈ acc then acc else acc ++ [x]) ↔ _
    rw [ih]
    by_cases hx : x ∈ acc
    · rw [if_pos hx]
      simp only [List.mem_cons]
      constructor
      · tauto
      · rintro (h | h | h) <;> try tauto
        exact Or.inl (h ▸ hx)
    · rw [if_neg hx]
      simp only [List.mem_append, List.mem_singleton, List.mem_cons]
      tauto

theorem mem_firstSeen (a : List Nat) (ks : List (List Nat)) :
    a ∈ firstSeen ks ↔ a ∈ ks := by
  unfold firstSeen
  rw [mem_foldl_firstSeen]
  simp

theorem foldl_firstSeen_length_mono (ks : List (List Nat)) :
    ∀ acc, acc.length ≤ (ks.foldl
      (fun acc k => if k ∈ acc then acc else acc ++ [k]) acc).length := by
  induction ks with
  | nil => intro acc; simp
  | cons x xs ih =>
    intro acc
    show acc.length ≤ (xs.foldl _ (if x ∈ acc then acc else acc ++ [x])).length
    refine le_trans ?_ (ih _)
    by_cases hx : x ∈ acc
    · rw [if_pos hx]
    · rw [if_neg hx]
      simp

theorem firstSeen_length_mono (xs ys : List (List Nat)) :
    (firstSeen xs).length ≤ (firstSeen (xs ++ ys)).length := by
  unfold firstSeen
  rw [List.foldl_append]
  exact foldl_firstSeen_length_mono ys _

theorem posIn_get (l : List (List Nat)) (k : List Nat) (h : k ∈ l) :
    l[posIn l k]? = some k := by
  induction l with
  | nil => exact absurd h (by simp)
  | cons x xs ih =>
    unfold posIn
    by_cases hx : x = k
    · rw [if_pos hx, hx]
      simp
    · rw [if_neg hx]
      have hmem : k ∈ xs := by
        rcases List.mem_cons.mp h with h1 | h1
        · exact absurd h1.symm hx
        · exact h1
      rw [Nat.add_comm 1 (posIn xs k)]
      rw [List.getElem?_cons_succ]
      exact ih hmem

theorem encInv_run (S K : Nat) (hS : S = 2 ^ K) (hS0 : 0 < S)
    (ks : List (List Nat)) (hcap : (firstSeen ks).length ≤ S) :
    EncInv S (runFieldEncode (yajbe_field_encoder_init_fixed S) ks).1
      (firstSeen ks) := by
  induction ks using List.reverseRecOn with
  | nil => exact encInv_init S
  | append_singleton ks k ih =>
    have hcap' : (firstSeen ks).length ≤ S :=
      le_trans (firstSeen_length_mono ks [k]) hcap
    have hInv := ih hcap'
    rw [runFieldEncode_snoc, firstSeen_snoc]
    by_cases hk : k ∈ firstSeen ks
    · rw [if_pos hk]
      have hj := posIn_get _ k hk
      have := encode_step_mem S K hS hS0 _ _ hInv k _ hj
      rw [this.1]
      exact this.2
    · rw [if_neg hk]
      have hlt : (firstSeen ks).length < S := by
        have := firstSeen_length_mono ks [k]
        rw [firstSeen_snoc, if_neg hk] at hcap
        simp at hcap
        omega
      exact (encode_step_new S K hS hS0 _ _ hInv k hk hlt).2.2

/-! ## Theorems for the claims -/

/-- C8: `encode_int(0)` emits the single negative-zero head byte `0x60`,
and the integer encoder reproduces the literal test vectors:
`1 → 40`, `24 → 57`, `25 → 58 00`, `0xFF → 58 e6`, `0xFFFF → 59 e6 ff`,
`-1 → 61`, `-23 → 77`, `-24 → 78 00`, `-0xFF → 78 e7` (hex). -/
theorem c8_encode_int_test_vectors :
    yajbe_encode_int 0 = [0x60]
    ∧ yajbe_encode_int 1 = [0x40]
    ∧ yajbe_encode_int 24 = [0x57]
    ∧ yajbe_encode_int 25 = [0x58, 0x00]
    ∧ yajbe_encode_int 0xFF = [0x58, 0xe6]
    ∧ yajbe_encode_int 0xFFFF = [0x59, 0xe6, 0xff]
    ∧ yajbe_encode_int (-1) = [0x61]
    ∧ yajbe_encode_int (-23) = [0x77]
    ∧ yajbe_encode_int (-24) = [0x78, 0x00]
    ∧ yajbe_encode_int (-0xFF) = [0x78, 0xe7] := by
  decide

/-- C7 counterexample: the claim says `next()` on a stream whose next byte
is `0x01` classifies that byte as TRUE (the boolean true classification).
On a fresh decoder the code classifies `0x01` as `YAJBE_EOF = 20`, which
is not the TRUE classification `2` (the classification of the boolean tag
`0x03`). -/
theorem c7_counterexample :
    (yajbe_decode_next {} ⟨[1], 0⟩).1 = YAJBE_EOF
    ∧ (yajbe_decode_next {} ⟨[3], 0⟩).1 = YAJBE_TRUE
    ∧ YAJBE_EOF ≠ YAJBE_TRUE := by
  decide

/-- C7 amended: for every decoder state, `next()` on a stream whose next
byte is `0x01` classifies the end-of-container sentinel as `YAJBE_EOF`
(entry `20` of the 256-entry head-byte table), a classification of its
own, distinct from TRUE and FALSE; the switch in `yajbe_decode_next` has
no case for it, so `item_length` is left unmodified (`0` on a fresh
decoder). -/
theorem c7_sentinel_classified_eof (d : YajbeDecoder) (r : MemReader)
    (hoff : r.offset < r.buffer.length)
    (hbyte : r.buffer.getD r.offset 0 % 256 = 1) :
    yajbe_decode_next d r =
      (YAJBE_EOF,
       { itemHead := 1, itemType := YAJBE_EOF, itemLength := d.itemLength },
       ⟨r.buffer, r.offset + 1⟩)
    ∧ YAJBE_EOF ≠ YAJBE_TRUE ∧ YAJBE_EOF ≠ YAJBE_FALSE := by
  refine ⟨?_, by decide, by decide⟩
  have ht : tokenOf 1 = YAJBE_EOF := by decide
  unfold yajbe_decode_next readU8
  rw [if_neg (by omega)]
  simp only [hbyte, ht, YAJBE_EOF, YAJBE_ARRAY, YAJBE_OBJECT, YAJBE_ARRAY_EOF,
    YAJBE_OBJECT_EOF, YAJBE_SMALL_BYTES, YAJBE_SMALL_STRING, YAJBE_BYTES,
    YAJBE_STRING, YAJBE_INT_SMALL, YAJBE_INT_POSITIVE, YAJBE_INT_NEGATIVE,
    YAJBE_FLOAT_32, YAJBE_FLOAT_64]
  norm_num

/-- C7 witness. -/
theorem c7_sentinel_classified_eof_witness :
    yajbe_decode_next {} ⟨[1], 0⟩ =
      (YAJBE_EOF,
       { itemHead := 1, itemType := YAJBE_EOF, itemLength := (0 : Int) },
       ⟨[1], 1⟩)
    ∧ YAJBE_EOF ≠ YAJBE_TRUE ∧ YAJBE_EOF ≠ YAJBE_FALSE :=
  c7_sentinel_classified_eof {} ⟨[1], 0⟩ (by decide) (by decide)

/-- C5: the claim says every combined next-and-read operation returns a
negative error code on a source with no remaining bytes.  The code
contradicts it: `yajbe_decode_next` itself fails with `-ENOSPC`, and the
sibling `yajbe_decode_next_null` propagates that negative code, but all
six combined operations (`_bool`, `_int`, `_float`, `_double`, `_bytes`,
`_string`) hit the `if (r < 0) return 0;` line and return `0`, the
success code. -/
theorem c5_next_ops_swallow_source_error :
    (yajbe_decode_next {} ⟨[], 0⟩).1 = -ENOSPC
    ∧ (yajbe_decode_next_null {} ⟨[], 0⟩).1 = -ENOSPC
    ∧ (yajbe_decode_next_bool {} ⟨[], 0⟩).1 = 0
    ∧ (yajbe_decode_next_int {} ⟨[], 0⟩).1 = 0
    ∧ (yajbe_decode_next_float {} ⟨[], 0⟩).1 = 0
    ∧ (yajbe_decode_next_double {} ⟨[], 0⟩).1 = 0
    ∧ (yajbe_decode_next_bytes {} ⟨[], 0⟩ 64).1 = 0
    ∧ (yajbe_decode_next_string {} ⟨[], 0⟩ 64).1 = 0
    ∧ ¬ ((0 : Int) < 0) := by
  decide

/-- C1: for every primitive value `v` in the encodable domain of its type
(null; booleans; int64 integers; float32/float64 bit patterns; byte
strings; UTF-8 strings), encoding `v` with the value encoder and then
decoding the produced bytes with `yajbe_decode_next` followed by the
matching typed read yields `v` back: exactly for ints, bools and null,
bit-for-bit for floats, byte-for-byte for strings and bytes. -/
theorem c1_primitive_roundtrip (v : YajbeValue) (hwf : wfValue v) :
    decodeValue (encodeValue v) = some v := by
  cases v with
  | vnull => decide
  | vbool b => cases b <;> decide
  | vint i =>
    obtain ⟨hlo, hhi⟩ := hwf
    by_cases hpos : i ≤ 0
    · by_cases hsm : -23 ≤ i
      · exact roundtrip_int_small_neg i hsm hpos
      · exact roundtrip_int_neg_big i hlo (by omega)
    · by_cases hsm : i ≤ 24
      · exact roundtrip_int_small_pos i (by omega) hsm
      · exact roundtrip_int_pos_big i (by omega) hhi
  | vfloat32 bits => exact roundtrip_float32 bits hwf
  | vfloat64 bits => exact roundtrip_float64 bits hwf
  | vbytes bs =>
    by_cases hsm : bs.length ≤ 59
    · exact roundtrip_bytes_small bs hsm
    · exact roundtrip_bytes_big bs (by omega) hwf.1
  | vstring bs =>
    by_cases hsm : bs.length ≤ 59
    · exact roundtrip_string_small bs hsm
    · exact roundtrip_string_big bs (by omega) hwf.1

/-- C1 witness: the round-trip theorem applied at the concrete values
`1234` and the string `"foo"`. -/
theorem c1_primitive_roundtrip_witness :
    wfValue (.vint 1234)
    ∧ decodeValue (encodeValue (.vint 1234)) = some (.vint 1234)
    ∧ wfValue (.vstring [102, 111, 111])
    ∧ decodeValue (encodeValue (.vstring [102, 111, 111]))
        = some (.vstring [102, 111, 111]) :=
  ⟨by decide, c1_primitive_roundtrip _ (by decide),
   by decide, c1_primitive_roundtrip _ (by decide)⟩

/-- C2: the claim says every key sequence fed to the field encoder
decodes back to the same byte-equal key sequence.  The code refutes it:
for `["hello", "Xello"]` the `__suffix` computation returns 5 (the loop
compares positions `1..len-1` only and returns `len` untested, although
`hello` and `Xello` differ in byte 0), the encoder emits the
prefix+suffix token `e0 00 05` whose reconstruction copies the last five
bytes of `"hello"`, and the decoder returns `["hello", "hello"]`. -/
theorem c2_roundtrip_failure :
    runFieldEncodeBytes (yajbe_field_encoder_init_fixed 16)
        [[104, 101, 108, 108, 111], [88, 101, 108, 108, 111]]
      = [0x85, 104, 101, 108, 108, 111, 0xe0, 0, 5]
    ∧ (runFieldDecode (yajbe_field_decoder_init_fixed 16 256)
        ⟨[0x85, 104, 101, 108, 108, 111, 0xe0, 0, 5], 0⟩ 2).1
      = [.ok [104, 101, 108, 108, 111], .ok [104, 101, 108, 108, 111]]
    ∧ ([104, 101, 108, 108, 111] : List Nat) ≠ [88, 101, 108, 108, 111] := by
  decide

/-- C3 counterexample: in the encoding of the scenario-4 key sequence the
token emitted for `"test_bar"` (the fourth call) is `c3 05 62 61 72` —
head family `110` (prefix form), not the prefix+suffix family `111` the
claim states (`"test_foo"` and `"test_bar"` share no common suffix, and
the code's `__suffix` returns 0 here). -/
theorem c3_counterexample :
    ((runFieldEncode (yajbe_field_encoder_init_fixed 16) testFieldKeys).2.getD 3
        (0, [])).2 = [0xc3, 5, 98, 97, 114]
    ∧ ((0xc3 : Nat) >>> 5) &&& 7 = 6
    ∧ (6 : Nat) ≠ 7 := by
  decide

/-- C3 amended: encoding the scenario-4 key sequence emits the
indexed-field token `a0` (index 0) for the fifth key `"foo"`; for
`"test_bar"` a prefix token (family `110`, prefix 5, payload `"bar"`);
for `"prefix_bar_suffix"` a prefix token (family `110`, prefix 7,
payload `"bar_suffix"`); and decoding the stream yields the identical
nine-key sequence. -/
theorem c3_field_sequence :
    ((runFieldEncode (yajbe_field_encoder_init_fixed 16) testFieldKeys).2.map
        (·.2))
      = [[0x83, 102, 111, 111], [0x83, 98, 97, 114],
         [0x88, 116, 101, 115, 116, 95, 102, 111, 111],
         [0xc3, 5, 98, 97, 114],
         [0xa0],
         [0x91, 112, 114, 101, 102, 105, 120, 95, 102, 111, 111, 95, 115,
          117, 102, 102, 105, 120],
         [0xca, 7, 98, 97, 114, 95, 115, 117, 102, 102, 105, 120],
         [0xa1], [0xa2]]
    ∧ (runFieldDecode (yajbe_field_decoder_init_fixed 16 256)
        ⟨runFieldEncodeBytes (yajbe_field_encoder_init_fixed 16) testFieldKeys,
         0⟩ 9).1
      = testFieldKeys.map .ok := by
  decide

/-- C4: the claim says a prefix+suffix token carries exactly
`L - prefix - suffix` key bytes after the two delta bytes, the length its
header declares.  The code refutes it: encoding `"abaXYZ"` after
`"ababa"` computes `prefix = 3` and (through the shifted `__suffix`
scan) `suffix = 3`, declares length `6 - 3 - 3 = 0` in the header `e0`,
but then writes `keylen - suffix = 3` bytes (`"XYZ"`) — `prefix` too
many — so the decoder (which reads exactly the declared length)
reconstructs `"abaaba"` and leaves three stray bytes unread. -/
theorem c4_prefix_suffix_length_mismatch :
    ((runFieldEncode (yajbe_field_encoder_init_fixed 16)
        [[97, 98, 97, 98, 97], [97, 98, 97, 88, 89, 90]]).2.getD 1 (0, [])).2
      = [0xe0, 3, 3, 88, 89, 90]
    ∧ (0xe0 : Nat) &&& 31 = 0
    ∧ [(88 : Nat), 89, 90].length = 3
    ∧ (3 : Nat) ≠ 6 - 3 - 3
    ∧ (runFieldDecode (yajbe_field_decoder_init_fixed 16 256)
        ⟨runFieldEncodeBytes (yajbe_field_encoder_init_fixed 16)
          [[97, 98, 97, 98, 97], [97, 98, 97, 88, 89, 90]], 0⟩ 2).1
      = [.ok [97, 98, 97, 98, 97], .ok [97, 98, 97, 97, 98, 97]]
    ∧ ([97, 98, 97, 97, 98, 97] : List Nat) ≠ [97, 98, 97, 88, 89, 90] := by
  decide

/-- C6 counterexample: with a capacity-2 table, feeding the three
distinct keys `"a"`, `"b"`, `"c"` through the encode path returns
success `0` on every call — the third call emits a full-name token and
discards `hadd`'s `-ENOSPC` instead of reporting out-of-space. -/
theorem c6_counterexample :
    ((runFieldEncode (yajbe_field_encoder_init_fixed 2)
        [[97], [98], [99]]).2.map (·.1)) = [0, 0, 0]
    ∧ (runFieldEncode (yajbe_field_encoder_init_fixed 2)
        [[97], [98], [99]]).1.entriesCount = 2
    ∧ (0 : Int) ≠ -ENOSPC := by
  decide

/-- C6 amended: once the fixed-capacity table is full,
`yajbe_field_encoder_hadd` itself does return `-ENOSPC` and leaves the
encoder unchanged, but `yajbe_field_hencode` discards that result: the
third distinct key on a capacity-2 table still gets result code 0 (a
full-name token) and the key stays unregistered. -/
theorem c6_hadd_enospc_hencode_swallows (fe : FieldEncoder) (khash : Nat)
    (key : List Nat) (hfull : fe.entriesCount = fe.entries.length) :
    (yajbe_field_encoder_hadd fe khash key).1 = -ENOSPC
    ∧ (yajbe_field_encoder_hadd fe khash key).2 = fe
    ∧ ((runFieldEncode (yajbe_field_encoder_init_fixed 2)
        [[97], [98], [99]]).2.map (·.1)) = [0, 0, 0] := by
  unfold yajbe_field_encoder_hadd
  rw [if_pos hfull]
  exact ⟨rfl, rfl, by decide⟩

/-- C6 witness: the amended statement applied at the concrete full table
produced by the first two keys. -/
theorem c6_hadd_enospc_hencode_swallows_witness :
    (yajbe_field_encoder_hadd
        (runFieldEncode (yajbe_field_encoder_init_fixed 2) [[97], [98]]).1
        (hash_fnv_1a [99]) [99]).1 = -ENOSPC
    ∧ (yajbe_field_encoder_hadd
        (runFieldEncode (yajbe_field_encoder_init_fixed 2) [[97], [98]]).1
        (hash_fnv_1a [99]) [99]).2
      = (runFieldEncode (yajbe_field_encoder_init_fixed 2) [[97], [98]]).1
    ∧ ((runFieldEncode (yajbe_field_encoder_init_fixed 2)
        [[97], [98], [99]]).2.map (·.1)) = [0, 0, 0] :=
  c6_hadd_enospc_hencode_swallows _ _ _ (by decide)

/-- C10: `__read_indexed_field_name` looks up `entries[index]` with the
index decoded from the stream and no check against the current entry
count: for an indexed token (head family `101`, single-byte index) the
lookup yields the stored entry exactly when `index` is below the number
of entries appended so far, and on a stream violating that precondition
the access is out of the appended range (`oob` in the model) rather than
a reported error code. -/
theorem c10_indexed_lookup (fd : FieldDecoder) (h : Nat) (rest : List Nat)
    (hh : h < 256) (hfam : (h >>> 5) &&& 7 = 5) (hidx : h &&& 31 < 30) :
    (∀ name, fd.entries.get? (h &&& 31) = some name →
       fieldDecodeStep fd ⟨h :: rest, 0⟩
         = (.ok name, { fd with lastField := name }, ⟨h :: rest, 1⟩))
    ∧ (fd.entries.get? (h &&& 31) = none →
       fieldDecodeStep fd ⟨h :: rest, 0⟩ = (.oob, fd, ⟨h :: rest, 1⟩)
       ∧ ∀ c : Int, (fieldDecodeStep fd ⟨h :: rest, 0⟩).1 ≠ .err c)
    ∧ (fd.entries.get? (h &&& 31) = none ↔ fd.entries.length ≤ h &&& 31) := by
  have hstep : fieldDecodeStep fd ⟨h :: rest, 0⟩ =
      (match fd.entries.get? (h &&& 31) with
       | some name => (.ok name, { fd with lastField := name }, ⟨h :: rest, 1⟩)
       | none => (.oob, fd, ⟨h :: rest, 1⟩)) := by
    unfold fieldDecodeStep readU8 fieldReadLength
    norm_num [List.getD, Nat.mod_eq_of_lt hh, hfam]
    rw [if_pos hidx]
  refine ⟨?_, ?_, List.get?_eq_none⟩
  · intro name hname
    rw [hstep, hname]
  · intro hnone
    rw [hstep, hnone]
    exact ⟨rfl, fun c => by simp⟩

/-- C10 witness: the indexed token `a5` (index 5) on a fresh field
decoder, whose entry table is empty. -/
theorem c10_indexed_lookup_witness :
    (∀ name,
       (yajbe_field_decoder_init_fixed 16 256).entries.get? (165 &&& 31)
           = some name →
       fieldDecodeStep (yajbe_field_decoder_init_fixed 16 256) ⟨165 :: [], 0⟩
         = (.ok name,
            { yajbe_field_decoder_init_fixed 16 256 with lastField := name },
            ⟨165 :: [], 1⟩))
    ∧ ((yajbe_field_decoder_init_fixed 16 256).entries.get? (165 &&& 31)
          = none →
       fieldDecodeStep (yajbe_field_decoder_init_fixed 16 256) ⟨165 :: [], 0⟩
           = (.oob, yajbe_field_decoder_init_fixed 16 256, ⟨165 :: [], 1⟩)
       ∧ ∀ c : Int,
           (fieldDecodeStep (yajbe_field_decoder_init_fixed 16 256)
             ⟨165 :: [], 0⟩).1 ≠ .err c)
    ∧ ((yajbe_field_decoder_init_fixed 16 256).entries.get? (165 &&& 31)
          = none
        ↔ (yajbe_field_decoder_init_fixed 16 256).entries.length ≤ 165 &&& 31) :=
  c10_indexed_lookup (yajbe_field_decoder_init_fixed 16 256) 165 []
    (by decide) (by decide) (by decide)

/-- C9: for every sequence of field-encode calls on a power-of-two
table large enough for the distinct keys, the field encoder assigns
index `i` to the `(i+1)`-th distinct key in first-seen order, and every
encode of a key already in the table emits the indexed-field form
carrying exactly that key's previously assigned index, without
inserting a new entry: at each call `i`, if the key was seen before,
the call emits the `0xa0`-family token for the key's first-seen
position and only updates `last_key`; if the key is new, the call
succeeds, the entry count grows by one, and the table lookup afterwards
assigns the key the next index — the number of distinct keys seen so
far. -/
theorem c9_index_assignment (S K : Nat) (hS : S = 2 ^ K) (hS0 : 0 < S)
    (ks : List (List Nat)) (hcap : (firstSeen ks).length ≤ S)
    (i : Nat) (hi : i < ks.length) :
    (ks.getD i [] ∈ ks.take i →
       yajbe_field_encode
           (runFieldEncode (yajbe_field_encoder_init_fixed S) (ks.take i)).1
           (ks.getD i [])
         = ((field_write_length 0xa0
              (posIn (firstSeen (ks.take i)) (ks.getD i []))).1,
            (field_write_length 0xa0
              (posIn (firstSeen (ks.take i)) (ks.getD i []))).2,
            { (runFieldEncode (yajbe_field_encoder_init_fixed S)
                (ks.take i)).1 with lastKey := some (ks.getD i []) }))
    ∧ (ks.getD i [] ∉ ks.take i →
       (yajbe_field_encode
           (runFieldEncode (yajbe_field_encoder_init_fixed S) (ks.take i)).1
           (ks.getD i [])).1 = 0
       ∧ (yajbe_field_encode
           (runFieldEncode (yajbe_field_encoder_init_fixed S) (ks.take i)).1
           (ks.getD i [])).2.2.entriesCount
         = (runFieldEncode (yajbe_field_encoder_init_fixed S)
             (ks.take i)).1.entriesCount + 1
       ∧ yajbe_field_encoder_hget
           (yajbe_field_encode
             (runFieldEncode (yajbe_field_encoder_init_fixed S)
               (ks.take i)).1 (ks.getD i [])).2.2
           (hash_fnv_1a (ks.getD i [])) (ks.getD i [])
         = ((firstSeen (ks.take i)).length : Int)) := by
  have hcap' : (firstSeen (ks.take i)).length ≤ S := by
    have := firstSeen_length_mono (ks.take i) (ks.drop i)
    rw [List.take_append_drop] at this
    omega
  have hInv := encInv_run S K hS hS0 (ks.take i) hcap'
  constructor
  · intro hmem
    have hmemFS : ks.getD i [] ∈ firstSeen (ks.take i) :=
      (mem_firstSeen _ _).mpr hmem
    exact (encode_step_mem S K hS hS0 _ _ hInv _ _ (posIn_get _ _ hmemFS)).1
  · intro hmem
    have hnotFS : ks.getD i [] ∉ firstSeen (ks.take i) :=
      fun hc => hmem ((mem_firstSeen _ _).mp hc)
    have hlt : (firstSeen (ks.take i)).length < S := by
      have hmono := firstSeen_length_mono (ks.take (i + 1)) (ks.drop (i + 1))
      rw [List.take_append_drop] at hmono
      have htake : ks.take (i + 1) = ks.take i ++ [ks.getD i []] := by
        rw [List.take_succ]
        congr 1
        rw [List.getD_eq_getElem?_getD, List.getElem?_eq_getElem hi]
        rfl
      rw [htake, firstSeen_snoc, if_neg hnotFS] at hmono
      simp at hmono
      omega
    obtain ⟨h0, hc, hInv2⟩ :=
      encode_step_new S K hS hS0 _ _ hInv (ks.getD i []) hnotFS hlt
    refine ⟨h0, ?_, ?_⟩
    · rw [hc]
      have := hInv.2.1
      omega
    · exact hget_found S K hS hS0 _ _ hInv2 _ (firstSeen (ks.take i)).length
        (List.getElem?_concat_length _ _)

/-- C9 witness: the third call of the sequence `["a", "b", "a"]` on a
4-slot table — a repeat of `"a"`, whose assigned index is 0. -/
theorem c9_index_assignment_witness :
    ([[97], [98], [97]].getD 2 [] ∈ [[97], [98], [97]].take 2 →
       yajbe_field_encode
           (runFieldEncode (yajbe_field_encoder_init_fixed 4)
             ([[97], [98], [97]].take 2)).1 ([[97], [98], [97]].getD 2 [])
         = ((field_write_length 0xa0
              (posIn (firstSeen ([[97], [98], [97]].take 2))
                ([[97], [98], [97]].getD 2 []))).1,
            (field_write_length 0xa0
              (posIn (firstSeen ([[97], [98], [97]].take 2))
                ([[97], [98], [97]].getD 2 []))).2,
            { (runFieldEncode (yajbe_field_encoder_init_fixed 4)
                  ([[97], [98], [97]].take 2)).1
              with lastKey := some ([[97], [98], [97]].getD 2 []) }))
    ∧ ([[97], [98], [97]].getD 2 [] ∉ [[97], [98], [97]].take 2 →
       (yajbe_field_encode
           (runFieldEncode (yajbe_field_encoder_init_fixed 4)
             ([[97], [98], [97]].take 2)).1
           ([[97], [98], [97]].getD 2 [])).1 = 0
       ∧ (yajbe_field_encode
           (runFieldEncode (yajbe_field_encoder_init_fixed 4)
             ([[97], [98], [97]].take 2)).1
           ([[97], [98], [97]].getD 2 [])).2.2.entriesCount
         = (runFieldEncode (yajbe_field_encoder_init_fixed 4)
             ([[97], [98], [97]].take 2)).1.entriesCount + 1
       ∧ yajbe_field_encoder_hget
           (yajbe_field_encode
             (runFieldEncode (yajbe_field_encoder_init_fixed 4)
               ([[97], [98], [97]].take 2)).1
             ([[97], [98], [97]].getD 2 [])).2.2
           (hash_fnv_1a ([[97], [98], [97]].getD 2 []))
           ([[97], [98], [97]].getD 2 [])
         = ((firstSeen ([[97], [98], [97]].take 2)).length : Int)) :=
  c9_index_assignment 4 2 (by decide) (by decide) [[97], [98], [97]]
    (by decide) 2 (by decide)

end Yajbe
